import Mathlib

/-!
Verification of the tactical resolution engine of the three_kingdoms
repository against its natural-language specification.

The Python sources are shallowly embedded:
* floats become exact rationals (`ℚ`); comparisons of Euclidean distances
  against thresholds are carried out on squares, which is exact for
  non-negative quantities and avoids irrational square roots;
* mutable `UnitState` objects are modelled by an explicit unit store
  (unit-id ↦ state) so that Python's reference aliasing between a
  province stack and the attacker lists is reproduced exactly;
* `heapq` is modelled as a bag of `(cost, id)` pairs from which the
  lexicographically least pair is removed, which is the observable
  behaviour of Python's binary heap on such tuples;
* the unbounded `while queue:` loop of the path-cost engine runs on
  explicit fuel, together with a proof that the chosen fuel is always
  sufficient, so the fuel never changes the computed answer.
-/

namespace ThreeKingdoms

/-! ### src/core/combat.py -/

def RESULT_A2 : String := "A2"

def RESULT_A1 : String := "A1"

def RESULT_AG : String := "AG"

def RESULT_AG_DG : String := "AG&DG"

def RESULT_C : String := "C"

def RESULT_DG : String := "DG"

def RESULT_DR : String := "DR"

def RESULT_D1 : String := "D1"

def RESULT_D1R : String := "D1R"

/-- `COMBAT_TABLE` from src/core/combat.py: a dict keyed by the dice value
1..6; `.get` on any other key yields the default (modelled by `none`). -/
def COMBAT_TABLE (dice : Int) : Option (List String) :=
  if dice = 1 then some [RESULT_A2, RESULT_A1, RESULT_A1, RESULT_C, RESULT_C, RESULT_DG]
  else if dice = 2 then some [RESULT_A1, RESULT_AG, RESULT_AG_DG, RESULT_DG, RESULT_DG, RESULT_DG]
  else if dice = 3 then some [RESULT_AG, RESULT_AG_DG, RESULT_C, RESULT_DG, RESULT_DR, RESULT_DR]
  else if dice = 4 then some [RESULT_AG, RESULT_C, RESULT_DG, RESULT_DR, RESULT_DR, RESULT_DR]
  else if dice = 5 then some [RESULT_C, RESULT_DG, RESULT_DR, RESULT_DR, RESULT_D1, RESULT_D1]
  else if dice = 6 then some [RESULT_DG, RESULT_DR, RESULT_D1, RESULT_D1, RESULT_D1, RESULT_D1R]
  else none

/-- `resolve_combat` from src/core/combat.py.  The column is clamped to
0..5, then looked up in the row (`COMBAT_TABLE.get(dice, [C]*6)[col]`).
After clamping the index is always in range, so the `getD` default is
dead code kept only to keep the lookup total. -/
def resolve_combat (dice : Int) (ratio_col : Int) : String :=
  let col : Int := max 0 (min 5 ratio_col)
  let row : List String := (COMBAT_TABLE dice).getD (List.replicate 6 RESULT_C)
  row.getD col.toNat RESULT_C

/-- `get_ratio_column` from src/core/combat.py; float arithmetic modelled
by exact rationals. -/
def get_ratio_column (attack_power defense_power : ℚ) (is_flanked : Bool) : Int :=
  if defense_power ≤ 0 then 5
  else
    let ratio : ℚ := attack_power / defense_power
    let col : Int :=
      if ratio < 1/2 then 0
      else if ratio < 3/2 then 1
      else if ratio < 5/2 then 2
      else if ratio < 7/2 then 3
      else if ratio < 9/2 then 4
      else 5
    if is_flanked then min 5 (col + 1) else col

/-- The 6×6 result table exactly as printed in the specification (rows are
dice 1..6, columns are ratio columns 0..5).  This definition is written
from the spec text, to be compared against the `COMBAT_TABLE` of the
source. -/
def specTableFromSpec : List (List String) :=
  [["A2", "A1",    "A1",    "C",  "C",  "DG"],
   ["A1", "AG",    "AG&DG", "DG", "DG", "DG"],
   ["AG", "AG&DG", "C",     "DG", "DR", "DR"],
   ["AG", "C",     "DG",    "DR", "DR", "DR"],
   ["C",  "DG",    "DR",    "DR", "D1", "D1"],
   ["DG", "DR",    "D1",    "D1", "D1", "D1R"]]


lemma getD_replicate_C (n : Nat) :
    (List.replicate 6 RESULT_C).getD n RESULT_C = RESULT_C := by
  match n with
  | 0 | 1 | 2 | 3 | 4 | 5 => rfl
  | n+6 =>
    show (List.replicate 6 RESULT_C).getD (n+6) RESULT_C = RESULT_C
    rfl

/-- C1: for every dice value 1..6 and column 0..5, `resolve_combat`
returns exactly the entry of the fixed 6×6 CRT printed in the spec;
in particular the three spot checks hold. -/
theorem combat_table_matches_spec :
    (∀ i j : Fin 6,
      resolve_combat ((i.val : Int) + 1) (j.val : Int) =
        (specTableFromSpec.getD i.val []).getD j.val "") ∧
    resolve_combat 1 0 = "A2" ∧ resolve_combat 6 5 = "D1R" ∧
    resolve_combat 3 2 = "C" := by
  refine ⟨?_, rfl, rfl, rfl⟩
  decide

lemma grc_unflanked (a d : ℚ) (hd : 0 < d) :
    get_ratio_column a d false =
      (if a/d < 1/2 then 0 else if a/d < 3/2 then 1 else if a/d < 5/2 then 2
       else if a/d < 7/2 then 3 else if a/d < 9/2 then 4 else 5 : Int) := by
  simp [get_ratio_column, if_neg (not_le.mpr hd)]

lemma grc_flanked (a d : ℚ) (hd : 0 < d) :
    get_ratio_column a d true = min 5 (get_ratio_column a d false + 1) := by
  simp [get_ratio_column, if_neg (not_le.mpr hd)]

/-- C2: column selection.  With defense ≤ 0 the function returns 5
without dividing; otherwise the unflanked column follows the half-open
brackets around the ratio `a/d`, and flanking adds one, clamped at 5. -/
theorem ratio_column_matches_spec (a d : ℚ) (f : Bool) :
    (d ≤ 0 → get_ratio_column a d f = 5) ∧
    (0 < d →
      ((a / d < 1/2 → get_ratio_column a d false = 0) ∧
       (1/2 ≤ a / d → a / d < 3/2 → get_ratio_column a d false = 1) ∧
       (3/2 ≤ a / d → a / d < 5/2 → get_ratio_column a d false = 2) ∧
       (5/2 ≤ a / d → a / d < 7/2 → get_ratio_column a d false = 3) ∧
       (7/2 ≤ a / d → a / d < 9/2 → get_ratio_column a d false = 4) ∧
       (9/2 ≤ a / d → get_ratio_column a d false = 5) ∧
       get_ratio_column a d true = min 5 (get_ratio_column a d false + 1))) ∧
    get_ratio_column 3 1 false = 3 ∧ get_ratio_column 3 1 true = 4 := by
  refine ⟨?_, ?_, by norm_num [get_ratio_column], by norm_num [get_ratio_column]⟩
  · intro hd
    simp only [get_ratio_column, if_pos hd]
  · intro hd
    refine ⟨?_, ?_, ?_, ?_, ?_, ?_, grc_flanked a d hd⟩ <;>
      rw [grc_unflanked a d hd] <;>
      intros <;> split_ifs <;> first | rfl | linarith

theorem ratio_column_matches_spec_witness :
    get_ratio_column 3 1 false = 3 ∧ get_ratio_column 3 1 true = 4 := by
  have h := ratio_column_matches_spec 3 1 false
  exact ⟨(h.2.1 (by norm_num)).2.2.2.1 (by norm_num) (by norm_num), h.2.2.2⟩

/-- C10: `resolve_combat` is total: any dice value outside 1..6 falls to
the all-`"C"` default row, and the column is clamped into 0..5 before the
lookup, so the result at any column equals the result at the clamped
column. -/
theorem resolve_combat_total (dice col : Int) :
    ((dice < 1 ∨ 6 < dice) → resolve_combat dice col = RESULT_C) ∧
    resolve_combat dice col = resolve_combat dice (max 0 (min 5 col)) := by
  constructor
  · intro h
    have htab : COMBAT_TABLE dice = none := by
      simp only [COMBAT_TABLE]
      split_ifs <;> first | rfl | (exfalso; omega)
    simp only [resolve_combat, htab, Option.getD_none]
    exact getD_replicate_C _
  · have hclamp : max 0 (min 5 (max 0 (min 5 col))) = max 0 (min 5 col) := by omega
    simp only [resolve_combat, hclamp]

theorem resolve_combat_total_witness : resolve_combat 9 2 = RESULT_C :=
  (resolve_combat_total 9 2).1 (Or.inr (by norm_num))

/-! ### Data model: src/game_objects/unit.py, src/map/province.py, and the
unit store.

Python `UnitState` objects are mutable and aliased (the same object sits
in a province stack and in the attacker list).  We model this by giving
every unit an id and keeping a single store from ids to states; a
province's `units` field holds ids.  `mp` is an attribute set on the
dataclass instances by app.py (`_replenish_action_points`). -/

structure UnitState where
  unit_type : String
  hp : Int
  is_confused : Bool
  attack_count : Int
  mp : Int
deriving DecidableEq, Repr

/-- `is_injured` property: `hp < 2`. -/
def UnitState.is_injured (u : UnitState) : Bool := decide (u.hp < 2)

/-- `UnitDefinition` (immutable), src/game_objects/unit.py. -/
structure UnitDefinition where
  move : Int
  attack : Int
  defense : Int
  range : Int
deriving DecidableEq, Repr

/-- `Province`, src/map/province.py, with the unit stack as a list of
unit ids into the store. -/
structure Province where
  province_id : Int
  name : String
  country : String
  terrain : String
  defense : ℚ
  victory_point : ℚ
  x_factor : ℚ
  y_factor : ℚ
  units : List Nat
deriving DecidableEq, Repr

/-- The mutable entity state touched by the combat resolver: the province
list plus the unit store. -/
structure GameState where
  provinces : List Province
  store : List (Nat × UnitState)
deriving DecidableEq, Repr

def sLookup (st : List (Nat × UnitState)) (uid : Nat) : Option UnitState :=
  match st with
  | [] => none
  | (k, u) :: rest => if k = uid then some u else sLookup rest uid

/-- In-place mutation of one unit object. -/
def sUpdate (st : List (Nat × UnitState)) (uid : Nat) (f : UnitState → UnitState) :
    List (Nat × UnitState) :=
  st.map (fun kv => if kv.1 = uid then (kv.1, f kv.2) else kv)

/-- `MapManager.get_by_id` in dict semantics (province ids are unique
 dict keys). -/
def getProv (σ : GameState) (pid : Int) : Option Province :=
  σ.provinces.find? (fun p => p.province_id == pid)

/-- In-place mutation of one province object. -/
def setProv (σ : GameState) (pid : Int) (f : Province → Province) : GameState :=
  { σ with provinces :=
      σ.provinces.map (fun p => if p.province_id == pid then f p else p) }

/-! ### Casualty/status targeting (src/core/app.py `_apply_damage`,
`_apply_confusion`).

Python sorts the living candidates with the stable `sorted` by the key
`(is_injured, defense)` and picks element 0.  A stable insertion sort by
the same key is extensionally the same selection. -/

/-- `sort_key` of `_apply_damage` / `_apply_confusion`:
`(1 if injured else 0, base defense)`. -/
def sortKey (defs : String → UnitDefinition) (u : UnitState) : Int × Int :=
  ((if u.is_injured then 1 else 0), (defs u.unit_type).defense)

/-- Lexicographic ≤ on python tuples `(Int, Int)`, as a Bool. -/
def keyLeB (k1 k2 : Int × Int) : Bool :=
  decide (k1.1 < k2.1) || (decide (k1.1 = k2.1) && decide (k1.2 ≤ k2.2))

/-- Lexicographic ≤ on pairs, as a proposition. -/
def lexLe (k1 k2 : Int × Int) : Prop :=
  k1.1 < k2.1 ∨ (k1.1 = k2.1 ∧ k1.2 ≤ k2.2)

/-- Strict lexicographic < on pairs. -/
def lexLt (k1 k2 : Int × Int) : Prop :=
  k1.1 < k2.1 ∨ (k1.1 = k2.1 ∧ k1.2 < k2.2)

instance (k1 k2 : Int × Int) : Decidable (lexLe k1 k2) := by
  unfold lexLe; infer_instance

instance (k1 k2 : Int × Int) : Decidable (lexLt k1 k2) := by
  unfold lexLt; infer_instance

lemma keyLeB_iff (k1 k2 : Int × Int) : keyLeB k1 k2 = true ↔ lexLe k1 k2 := by
  simp [keyLeB, lexLe]

lemma keyLeB_false_iff (k1 k2 : Int × Int) : keyLeB k1 k2 = false ↔ lexLt k2 k1 := by
  rcases k1 with ⟨a, b⟩; rcases k2 with ⟨c, d⟩
  simp only [keyLeB, lexLt, Bool.or_eq_false_iff, Bool.and_eq_false_iff,
    decide_eq_false_iff_not, not_lt, not_le]
  omega

lemma lexLe_trans {a b c : Int × Int} (h1 : lexLe a b) (h2 : lexLe b c) : lexLe a c := by
  rcases h1 with h | ⟨e, h⟩ <;> rcases h2 with h2 | ⟨e2, h2⟩ <;>
    unfold lexLe <;> first
      | exact Or.inl (by omega)
      | exact Or.inr (by omega)

lemma lexLt_le {a b : Int × Int} (h : lexLt a b) : lexLe a b := by
  rcases h with h | ⟨e, h⟩
  · exact Or.inl h
  · exact Or.inr ⟨e, le_of_lt h⟩

lemma lexLt_of_lt_of_le {a b c : Int × Int} (h1 : lexLt a b) (h2 : lexLe b c) : lexLt a c := by
  rcases h1 with h | ⟨e, h⟩ <;> rcases h2 with h2 | ⟨e2, h2⟩ <;>
    unfold lexLt <;> first
      | exact Or.inl (by omega)
      | exact Or.inr (by omega)

/-- Stable insertion of `x` into a list: `x` goes before the first
element whose key is not strictly smaller. -/
def insertByKey (key : α → Int × Int) (x : α) : List α → List α
  | [] => [x]
  | y :: ys => if keyLeB (key x) (key y) then x :: y :: ys else y :: insertByKey key x ys

/-- Stable sort by key; extensionally Python's `sorted(..., key=...)`
restricted to what the code observes (the head element). -/
def sortByKey (key : α → Int × Int) : List α → List α
  | [] => []
  | x :: xs => insertByKey key x (sortByKey key xs)

lemma lexLe_refl (k : Int × Int) : lexLe k k := Or.inr ⟨rfl, le_refl _⟩

/-- `x` is the first element of `l` attaining the minimal key: it splits
`l`, is a lower bound of all keys, and everything before it has a
strictly larger key (the stable tie-break of Python's `sorted`). -/
def FirstMin (key : α → Int × Int) (l : List α) (x : α) : Prop :=
  ∃ l1 l2, l = l1 ++ x :: l2 ∧ (∀ y ∈ l, lexLe (key x) (key y)) ∧
    ∀ y ∈ l1, lexLt (key x) (key y)

lemma insertByKey_ne_nil (key : α → Int × Int) (x : α) (l : List α) :
    insertByKey key x l ≠ [] := by
  cases l with
  | nil => simp [insertByKey]
  | cons y ys =>
    simp only [insertByKey]
    split_ifs <;> simp

lemma sortByKey_eq_nil_iff (key : α → Int × Int) (l : List α) :
    sortByKey key l = [] ↔ l = [] := by
  cases l with
  | nil => simp [sortByKey]
  | cons x xs => simp [sortByKey, insertByKey_ne_nil]

/-- The head of the stable sort is the first minimal element. -/
lemma sortByKey_head_firstMin (key : α → Int × Int) :
    ∀ (l : List α) (x : α), (sortByKey key l).head? = some x → FirstMin key l x := by
  intro l
  induction l with
  | nil => intro x h; simp [sortByKey] at h
  | cons a xs ih =>
    intro x h
    simp only [sortByKey] at h
    rcases hxs : sortByKey key xs with _ | ⟨m, rest⟩
    · have hxsnil : xs = [] := (sortByKey_eq_nil_iff key xs).mp hxs
      subst hxsnil
      rw [hxs] at h
      simp only [insertByKey, List.head?_cons, Option.some.injEq] at h
      subst h
      refine ⟨[], [], rfl, ?_, by simp⟩
      intro y hy
      simp only [List.mem_singleton] at hy
      subst hy
      exact lexLe_refl _
    · rw [hxs] at h
      have hm : FirstMin key xs m := ih m (by rw [hxs]; rfl)
      obtain ⟨l1, l2, hdec, hmin, hstrict⟩ := hm
      simp only [insertByKey] at h
      by_cases hk : keyLeB (key a) (key m) = true
      · rw [if_pos hk] at h
        simp only [List.head?_cons, Option.some.injEq] at h
        subst h
        refine ⟨[], xs, rfl, ?_, by simp⟩
        intro y hy
        rcases List.mem_cons.mp hy with hy | hy
        · subst hy; exact lexLe_refl _
        · exact lexLe_trans ((keyLeB_iff _ _).mp hk) (hmin y hy)
      · rw [if_neg hk] at h
        simp only [List.head?_cons, Option.some.injEq] at h
        subst h
        have hlt : lexLt (key m) (key a) :=
          (keyLeB_false_iff _ _).mp (Bool.eq_false_iff.mpr hk)
        refine ⟨a :: l1, l2, by rw [hdec]; rfl, ?_, ?_⟩
        · intro y hy
          rcases List.mem_cons.mp hy with hy | hy
          · subst hy; exact lexLt_le hlt
          · exact hmin y hy
        · intro y hy
          rcases List.mem_cons.mp hy with hy | hy
          · subst hy; exact hlt
          · exact hstrict y hy

/-- The living candidates of `_apply_damage` / `_apply_confusion`:
`[u for u in units if u.hp > 0]`, paired with their ids. -/
def livingUnits (store : List (Nat × UnitState)) (uids : List Nat) :
    List (Nat × UnitState) :=
  uids.filterMap (fun uid => (sLookup store uid).bind
    (fun u => if u.hp > 0 then some (uid, u) else none))

/-- `_apply_damage` of src/core/app.py: each point re-sorts the living
units by `(is_injured, defense)` and decrements the hp of element 0. -/
def applyDamage (defs : String → UnitDefinition) (store : List (Nat × UnitState))
    (uids : List Nat) : Nat → List (Nat × UnitState)
  | 0 => store
  | n+1 =>
    match sortByKey (fun p => sortKey defs p.2) (livingUnits store uids) with
    | [] => store
    | (uid, _) :: _ =>
      applyDamage defs (sUpdate store uid (fun w => { w with hp := w.hp - 1 })) uids n

/-- `_apply_confusion` of src/core/app.py: same selection; an already
confused target loses 1 hp instead, otherwise it becomes confused. -/
def applyConfusion (defs : String → UnitDefinition) (store : List (Nat × UnitState))
    (uids : List Nat) : Nat → List (Nat × UnitState)
  | 0 => store
  | n+1 =>
    match sortByKey (fun p => sortKey defs p.2) (livingUnits store uids) with
    | [] => store
    | (uid, u) :: _ =>
      applyConfusion defs
        (if u.is_confused then sUpdate store uid (fun w => { w with hp := w.hp - 1 })
         else sUpdate store uid (fun w => { w with is_confused := true })) uids n

lemma mem_livingUnits {store : List (Nat × UnitState)} {uids : List Nat}
    {uid : Nat} {u : UnitState} :
    (uid, u) ∈ livingUnits store uids ↔
      uid ∈ uids ∧ sLookup store uid = some u ∧ 0 < u.hp := by
  simp only [livingUnits, List.mem_filterMap, Option.bind_eq_some]
  constructor
  · rintro ⟨v, hv, w, hw, hif⟩
    by_cases hhp : w.hp > 0
    · rw [if_pos hhp, Option.some.injEq, Prod.mk.injEq] at hif
      obtain ⟨rfl, rfl⟩ := hif
      exact ⟨hv, hw, hhp⟩
    · rw [if_neg hhp] at hif
      cases hif
  · rintro ⟨h1, h2, h3⟩
    exact ⟨uid, h1, u, h2, by rw [if_pos h3]⟩

/-- Sample definitions for the spec's damage-targeting example: type
`"d3"` has base defense 3, any other type has base defense 5. -/
def defs35 : String → UnitDefinition := fun t =>
  if t = "d3" then ⟨2, 2, 3, 1⟩ else ⟨2, 2, 5, 1⟩

/-- Two uninjured defenders of defense 5 and 3, the defense-5 one first
in stack order. -/
def store35 : List (Nat × UnitState) :=
  [(0, ⟨"d5", 2, false, 0, 2⟩), (1, ⟨"d3", 2, false, 0, 2⟩)]

/-- One already-confused unit, for the confusion-escalation example. -/
def storeConf : List (Nat × UnitState) := [(7, ⟨"d3", 2, true, 0, 2⟩)]

/-- C9: each damage/confusion point re-selects its target among the
currently living units as the first (stable tie-break) unit minimizing
`(injured?, base defense)`; damage decrements hp, confusion on an
already-confused unit decrements hp, otherwise sets the flag.  With two
uninjured defenders of defense 3 and 5 the first point hits the
defense-3 unit and the second the defense-5 unit. -/
theorem casualty_targeting_matches_spec :
    (∀ (defs : String → UnitDefinition) (store : List (Nat × UnitState))
       (uids : List Nat) (n : Nat),
      livingUnits store uids ≠ [] →
        ∃ uid u,
          FirstMin (fun p => sortKey defs p.2) (livingUnits store uids) (uid, u) ∧
          sLookup store uid = some u ∧ 0 < u.hp ∧
          applyDamage defs store uids (n+1) =
            applyDamage defs (sUpdate store uid (fun w => { w with hp := w.hp - 1 })) uids n ∧
          applyConfusion defs store uids (n+1) =
            applyConfusion defs
              (if u.is_confused then sUpdate store uid (fun w => { w with hp := w.hp - 1 })
               else sUpdate store uid (fun w => { w with is_confused := true })) uids n) ∧
    applyDamage defs35 store35 [0, 1] 1 =
      [(0, ⟨"d5", 2, false, 0, 2⟩), (1, ⟨"d3", 1, false, 0, 2⟩)] ∧
    applyDamage defs35 store35 [0, 1] 2 =
      [(0, ⟨"d5", 1, false, 0, 2⟩), (1, ⟨"d3", 1, false, 0, 2⟩)] ∧
    applyConfusion defs35 storeConf [7] 1 = [(7, ⟨"d3", 1, true, 0, 2⟩)] := by
  refine ⟨?_, by decide, by decide, by decide⟩
  intro defs store uids n hne
  have hsne : sortByKey (fun p => sortKey defs p.2) (livingUnits store uids) ≠ [] :=
    fun hnil => hne ((sortByKey_eq_nil_iff _ _).mp hnil)
  obtain ⟨⟨uid, u⟩, rest, hsort⟩ :
      ∃ p rest, sortByKey (fun p => sortKey defs p.2) (livingUnits store uids) = p :: rest := by
    cases hc : sortByKey (fun p => sortKey defs p.2) (livingUnits store uids) with
    | nil => exact absurd hc hsne
    | cons p r => exact ⟨p, r, rfl⟩
  have hfm : FirstMin (fun p => sortKey defs p.2) (livingUnits store uids) (uid, u) :=
    sortByKey_head_firstMin _ _ _ (by rw [hsort]; rfl)
  have hmem : (uid, u) ∈ livingUnits store uids := by
    obtain ⟨l1, l2, hdec, hmin, hstrict⟩ := hfm
    rw [hdec]
    exact List.mem_append.mpr (Or.inr (List.mem_cons_self _ _))
  obtain ⟨-, hlk, hhp⟩ := mem_livingUnits.mp hmem
  refine ⟨uid, u, hfm, hlk, hhp, ?_, ?_⟩
  · rw [applyDamage, hsort]
  · rw [applyConfusion, hsort]

theorem casualty_targeting_matches_spec_witness :
    livingUnits store35 [0, 1] ≠ [] ∧
    ∃ uid u,
      FirstMin (fun p => sortKey defs35 p.2) (livingUnits store35 [0, 1]) (uid, u) ∧
      sLookup store35 uid = some u ∧ 0 < u.hp ∧
      applyDamage defs35 store35 [0, 1] 1 =
        applyDamage defs35 (sUpdate store35 uid (fun w => { w with hp := w.hp - 1 })) [0, 1] 0 ∧
      applyConfusion defs35 store35 [0, 1] 1 =
        applyConfusion defs35
          (if u.is_confused then sUpdate store35 uid (fun w => { w with hp := w.hp - 1 })
           else sUpdate store35 uid (fun w => { w with is_confused := true })) [0, 1] 0 :=
  ⟨by decide, casualty_targeting_matches_spec.1 defs35 store35 [0, 1] 0 (by decide)⟩

/-! ### Retreat (src/core/app.py `_handle_retreat`). -/

/-- `str.lower()` on the character list (same as `String.toLower`, but
defined by structural recursion so that it reduces inside `decide`). -/
def strToLower (s : String) : String := ⟨s.data.map Char.toLower⟩

/-- `terrain.lower() if terrain else ""` (Python truthiness of str). -/
def terrLower (t : String) : String := if t = "" then "" else strToLower t

/-- membership test `in ("hill", "mountain", "hills", "mountains")`. -/
def isRoughTerrain (t : String) : Bool :=
  (["hill", "mountain", "hills", "mountains"] : List String).contains (terrLower t)

/-- The `valid_destinations` list built by `_handle_retreat`: neighbors
that are friendly or unowned, have stack room, and whose step cost
(1, +1 on rough terrain — the code does not consult river crossings
here) is ≤ 1.  Destinations are kept in adjacency traversal order. -/
def retreatDestinations (adjacency : Int → List Int) (σ : GameState)
    (prov : Province) : List Int :=
  (adjacency prov.province_id).filterMap (fun nid =>
    match getProv σ nid with
    | none => none
    | some dest =>
      if dest.country ≠ "" ∧ dest.country ≠ prov.country then none
      else if dest.units.length + prov.units.length > 3 then none
      else
        let stepCost : Int := 1 + (if isRoughTerrain dest.terrain then 1 else 0)
        if stepCost ≤ 1 then some dest.province_id else none)

/-- `_handle_retreat`: move the whole stack to the first valid neighbor,
or apply one damage point when there is none. -/
def handleRetreat (defs : String → UnitDefinition) (adjacency : Int → List Int)
    (σ : GameState) (pid : Int) : GameState :=
  match getProv σ pid with
  | none => σ
  | some prov =>
    if prov.units = [] then σ
    else
      match retreatDestinations adjacency σ prov with
      | [] => { σ with store := applyDamage defs σ.store prov.units 1 }
      | dest :: _ =>
        let σ1 := setProv σ dest (fun p => { p with units := p.units ++ prov.units })
        setProv σ1 pid (fun p => { p with units := [] })

lemma getProv_id {σ : GameState} {pid : Int} {p : Province}
    (h : getProv σ pid = some p) : p.province_id = pid := by
  have hp := List.find?_some h
  simpa using hp

lemma mem_retreatDestinations {adjacency : Int → List Int} {σ : GameState}
    {prov : Province} {nid : Int} :
    nid ∈ retreatDestinations adjacency σ prov ↔
      nid ∈ adjacency prov.province_id ∧
      ∃ dest, getProv σ nid = some dest ∧
        (dest.country = "" ∨ dest.country = prov.country) ∧
        dest.units.length + prov.units.length ≤ 3 ∧
        isRoughTerrain dest.terrain = false := by
  simp only [retreatDestinations, List.mem_filterMap]
  constructor
  · rintro ⟨v, hv, hsome⟩
    rcases hg : getProv σ v with _ | dest
    · rw [hg] at hsome; cases hsome
    · rw [hg] at hsome
      dsimp only at hsome
      by_cases h1 : dest.country ≠ "" ∧ dest.country ≠ prov.country
      · rw [if_pos h1] at hsome; cases hsome
      rw [if_neg h1] at hsome
      by_cases h2 : dest.units.length + prov.units.length > 3
      · rw [if_pos h2] at hsome; cases hsome
      rw [if_neg h2] at hsome
      by_cases hcost : (1 + if isRoughTerrain dest.terrain = true then (1 : Int) else 0) ≤ 1
      · rw [if_pos hcost, Option.some.injEq] at hsome
        have hid : dest.province_id = v := getProv_id hg
        have hnv : nid = v := by rw [← hsome, hid]
        subst hnv
        have hrough : isRoughTerrain dest.terrain = false := by
          cases hr : isRoughTerrain dest.terrain
          · rfl
          · rw [hr] at hcost; norm_num at hcost
        push_neg at h1
        refine ⟨hv, dest, hg, ?_, by omega, hrough⟩
        by_cases hc : dest.country = ""
        · exact Or.inl hc
        · exact Or.inr (h1 hc)
      · rw [if_neg hcost] at hsome; cases hsome
  · rintro ⟨hadj, dest, hg, hc, hstack, hrough⟩
    refine ⟨nid, hadj, ?_⟩
    rw [hg]
    dsimp only
    have h1 : ¬(dest.country ≠ "" ∧ dest.country ≠ prov.country) := by
      rintro ⟨hne, hne2⟩
      rcases hc with hc | hc <;> contradiction
    have h2 : ¬(dest.units.length + prov.units.length > 3) := by omega
    rw [if_neg h1, if_neg h2, hrough]
    norm_num
    exact getProv_id hg

/-- C5 (amended): a neighbor is a valid retreat destination iff it is
(a) not owned by an enemy faction, (b) has stack room, and (c) is not
rough terrain — the code does not consult the river-crossing flag.  The
first valid neighbor in traversal order receives the whole defending
stack and the origin stack is cleared; with no valid neighbor one extra
damage point is applied via the targeting-priority rule. -/
theorem retreat_matches_amended_spec (defs : String → UnitDefinition)
    (adjacency : Int → List Int) (σ : GameState) (pid : Int) (prov : Province)
    (hprov : getProv σ pid = some prov) (hne : prov.units ≠ []) :
    (∀ nid, nid ∈ retreatDestinations adjacency σ prov ↔
      nid ∈ adjacency prov.province_id ∧
      ∃ dest, getProv σ nid = some dest ∧
        (dest.country = "" ∨ dest.country = prov.country) ∧
        dest.units.length + prov.units.length ≤ 3 ∧
        isRoughTerrain dest.terrain = false) ∧
    (∀ d rest, retreatDestinations adjacency σ prov = d :: rest →
      handleRetreat defs adjacency σ pid =
        setProv (setProv σ d (fun p => { p with units := p.units ++ prov.units })) pid
          (fun p => { p with units := [] })) ∧
    (retreatDestinations adjacency σ prov = [] →
      handleRetreat defs adjacency σ pid =
        { σ with store := applyDamage defs σ.store prov.units 1 }) := by
  refine ⟨fun nid => mem_retreatDestinations, ?_, ?_⟩
  · intro d rest hd
    rw [handleRetreat, hprov]
    simp only [if_neg hne, hd]
  · intro hd
    rw [handleRetreat, hprov]
    simp only [if_neg hne, hd]

/-! Concrete instance used by the C5 witness and counterexample: a
defender on province 1 (country "SHU", one living unit), whose only
neighbor is the unowned empty plain province 2, with the edge 1–2
flagged as river-crossing. -/

def cexDefs : String → UnitDefinition := fun _ => ⟨2, 2, 3, 1⟩

def cexAdj : Int → List Int := fun pid =>
  if pid = 1 then [2] else if pid = 2 then [1] else []

def cexRiver : Int → Int → Bool := fun a b =>
  decide ((a = 1 ∧ b = 2) ∨ (a = 2 ∧ b = 1))

def cexDefenderProv : Province := ⟨1, "D", "SHU", "plain", 0, 0, 0, 0, [0]⟩

def cexState : GameState :=
  ⟨[cexDefenderProv, ⟨2, "N", "", "plain", 0, 0, 1, 0, []⟩],
   [(0, ⟨"infantry", 1, false, 0, 2⟩)]⟩

/-- C5 counterexample: the edge 1→2 is river-crossing, so under the
claim province 2 is not a valid destination and the stack should take
one damage point instead; the code nevertheless lists 2 as valid,
moves the stack across the river and applies no damage. -/
theorem retreat_claim_counterexample :
    cexRiver 1 2 = true ∧
    retreatDestinations cexAdj cexState cexDefenderProv = [2] ∧
    (getProv (handleRetreat cexDefs cexAdj cexState 1) 2).map Province.units =
      some [0] ∧
    (getProv (handleRetreat cexDefs cexAdj cexState 1) 1).map Province.units =
      some ([] : List Nat) ∧
    (handleRetreat cexDefs cexAdj cexState 1).store = cexState.store := by
  decide

theorem retreat_matches_amended_spec_witness :
    (∀ nid, nid ∈ retreatDestinations cexAdj cexState cexDefenderProv ↔
      nid ∈ cexAdj cexDefenderProv.province_id ∧
      ∃ dest, getProv cexState nid = some dest ∧
        (dest.country = "" ∨ dest.country = cexDefenderProv.country) ∧
        dest.units.length + cexDefenderProv.units.length ≤ 3 ∧
        isRoughTerrain dest.terrain = false) ∧
    (∀ d rest, retreatDestinations cexAdj cexState cexDefenderProv = d :: rest →
      handleRetreat cexDefs cexAdj cexState 1 =
        setProv (setProv cexState d
          (fun p => { p with units := p.units ++ cexDefenderProv.units })) 1
          (fun p => { p with units := [] })) ∧
    (retreatDestinations cexAdj cexState cexDefenderProv = [] →
      handleRetreat cexDefs cexAdj cexState 1 =
        { cexState with
            store := applyDamage cexDefs cexState.store cexDefenderProv.units 1 }) :=
  retreat_matches_amended_spec cexDefs cexAdj cexState 1 cexDefenderProv (by rfl)
    (by decide)

/-! ### Full combat resolution (src/core/app.py `_resolve_combat` and
helpers).  The dice roll is a parameter (the only nondeterminism). -/

/-- `sub` is an initial segment of `l`. -/
def listLeads (sub l : List Char) : Bool :=
  match sub, l with
  | [], _ => true
  | _ :: _, [] => false
  | c :: cs, d :: ds => c == d && listLeads cs ds

/-- `sub` occurs contiguously in `l`. -/
def listHasSeq (sub : List Char) : List Char → Bool
  | [] => sub.isEmpty
  | c :: ds => listLeads sub (c :: ds) || listHasSeq sub ds

/-- Python's `sub in s` on strings. -/
def strHasSub (s sub : String) : Bool := listHasSeq sub.data s.data

/-- `_calculate_unit_powers`: base (attack, defense) halved when injured,
then reduced by 1 (floored at 0) when confused. -/
def unitPowers (defs : String → UnitDefinition) (u : UnitState) : ℚ × ℚ :=
  let atk : ℚ := ((defs u.unit_type).attack : ℚ)
  let dfs : ℚ := ((defs u.unit_type).defense : ℚ)
  let atk := if u.is_injured then atk * (1/2) else atk
  let dfs := if u.is_injured then dfs * (1/2) else dfs
  let atk := if u.is_confused then max 0 (atk - 1) else atk
  let dfs := if u.is_confused then max 0 (dfs - 1) else dfs
  (atk, dfs)

/-- `_base_type` inside `get_relationship`: substring detection of the
base archetype, in the code's check order. -/
def baseType (t : String) : String :=
  let tl := strToLower t
  if strHasSub tl "infantry" then "infantry"
  else if strHasSub tl "cavalry" then "cavalry"
  else if strHasSub tl "archer" then "archer"
  else ""

/-- `get_relationship`: 1 favorable, -1 unfavorable, 0 neutral. -/
def relationship (attacker_type defender_type : String) : Int :=
  let a := baseType attacker_type
  let d := baseType defender_type
  if a = "" ∨ d = "" then 0
  else if a = "infantry" then (if d = "archer" then 1 else if d = "cavalry" then -1 else 0)
  else if a = "archer" then (if d = "cavalry" then 1 else if d = "infantry" then -1 else 0)
  else if a = "cavalry" then (if d = "infantry" then 1 else if d = "archer" then -1 else 0)
  else 0

/-- Matchup bonus of one attacker against the defending stack:
+0.5 when favorable against any defender, -0.5 when unfavorable. -/
def matchupBonus (atype : String) (defenderTypes : List String) : ℚ :=
  let hasAdv := defenderTypes.any (fun d => relationship atype d == 1)
  let hasDis := defenderTypes.any (fun d => relationship atype d == -1)
  (if hasAdv then (1/2 : ℚ) else 0) - (if hasDis then (1/2 : ℚ) else 0)

/-- Squared Euclidean distance (float `dist` idealised; all comparisons
against thresholds are made on squares, which is exact). -/
def distSq (a b : ℚ × ℚ) : ℚ := (a.1 - b.1)^2 + (a.2 - b.2)^2

/-- Order-preserving de-duplication (first occurrence kept), as the
`seen`-set loop of `_cleanup_dead_units`. -/
def dedupFirstAux (seen : List Int) : List Int → List Int
  | [] => []
  | x :: xs => if x ∈ seen then dedupFirstAux seen xs
               else x :: dedupFirstAux (x :: seen) xs

def dedupFirst (l : List Int) : List Int := dedupFirstAux [] l

def insertNat (x : Nat) : List Nat → List Nat
  | [] => [x]
  | y :: ys => if x ≤ y then x :: y :: ys else y :: insertNat x ys

/-- Python's `sorted` on a list of indices. -/
def sortNat : List Nat → List Nat
  | [] => []
  | x :: xs => insertNat x (sortNat xs)

/-- `u.hp > 0` read through the store. -/
def isLivingId (store : List (Nat × UnitState)) (uid : Nat) : Bool :=
  match sLookup store uid with
  | some u => decide (0 < u.hp)
  | none => false

/-- Post-combat fatigue: every attacking unit loses 1 mp, its
`attack_count` increments, and reaching 2 forces confusion. -/
def applyFatigue (store : List (Nat × UnitState)) (attackers : List (Int × Nat)) :
    List (Nat × UnitState) :=
  attackers.foldl (fun st pu =>
    sUpdate st pu.2 (fun u =>
      let u1 := { u with mp := u.mp - 1, attack_count := u.attack_count + 1 }
      if u1.attack_count ≥ 2 then { u1 with is_confused := true } else u1)) store

/-- `_cleanup_dead_units`: when any attacker died, filter every distinct
attacker province; always filter the defender tile. -/
def cleanupDeadUnits (σ : GameState) (attackers : List (Int × Nat))
    (targetPid : Int) : GameState :=
  let anyDead := attackers.any (fun pu =>
    match sLookup σ.store pu.2 with
    | some u => decide (u.hp ≤ 0)
    | none => false)
  let σ1 :=
    if anyDead then
      (dedupFirst (attackers.map Prod.fst)).foldl
        (fun σ2 pid => setProv σ2 pid
          (fun p => { p with units := p.units.filter (fun uid => isLivingId σ.store uid) }))
        σ
    else σ
  setProv σ1 targetPid
    (fun p => { p with units := p.units.filter (fun uid => isLivingId σ.store uid) })

/-- `_advance_after_combat`: up to 2 surviving attackers still standing
in their origin stack move into the defender tile, which flips to the
player's ownership. -/
def advanceStep (playerCountry : String) (targetPid : Int)
    (acc : GameState × Nat) (pu : Int × Nat) : GameState × Nat :=
  if acc.2 ≥ 2 then acc
  else
    match getProv acc.1 pu.1, sLookup acc.1.store pu.2 with
    | some prov, some u =>
      if 0 < u.hp ∧ pu.2 ∈ prov.units then
        let σb := setProv acc.1 pu.1 (fun p => { p with units := p.units.erase pu.2 })
        let σc := setProv σb targetPid
          (fun p => { p with units := p.units ++ [pu.2], country := playerCountry })
        (σc, acc.2 + 1)
      else acc
    | _, _ => acc

def advanceAfterCombat (playerCountry : String) (σ : GameState)
    (attackers : List (Int × Nat)) (targetPid : Int) : GameState :=
  (attackers.foldl (advanceStep playerCountry targetPid) (σ, 0)).1

/-- `_resolve_combat` (dice injected): parse the result code by substring
tests, apply confusion, damage, retreat, fatigue, cleanup and advance in
the code's order. -/
def resolveCombatFull (defs : String → UnitDefinition) (playerCountry : String)
    (adjacency : Int → List Int) (σ : GameState) (dice colIndex : Int)
    (attackers : List (Int × Nat)) (targetPid : Int) : GameState :=
  let result_code := resolve_combat dice colIndex
  let dmg_attacker : Nat :=
    if strHasSub result_code "A2" then 2
    else if strHasSub result_code "A1" then 1 else 0
  let dmg_defender : Nat := if strHasSub result_code "D1" then 1 else 0
  let retreat_defender :=
    strHasSub result_code "DR" ||
      (strHasSub result_code "R" && strHasSub result_code "D")
  let σ := if strHasSub result_code "AG" then
      { σ with store := applyConfusion defs σ.store (attackers.map Prod.snd) 1 }
    else σ
  let σ := if strHasSub result_code "DG" then
      { σ with store := (applyConfusion defs σ.store
          (((getProv σ targetPid).map Province.units).getD []) 1) }
    else σ
  let σ := if dmg_attacker > 0 then
      { σ with store := applyDamage defs σ.store (attackers.map Prod.snd) dmg_attacker }
    else σ
  let σ := if dmg_defender > 0 then
      { σ with store := (applyDamage defs σ.store
          (((getProv σ targetPid).map Province.units).getD []) dmg_defender) }
    else σ
  let σ := if retreat_defender then handleRetreat defs adjacency σ targetPid else σ
  let σ := { σ with store := applyFatigue σ.store attackers }
  let σ := cleanupDeadUnits σ attackers targetPid
  if (((getProv σ targetPid).map Province.units).getD []) = [] then
    advanceAfterCombat playerCountry σ attackers targetPid
  else σ

/-! ### Movement (src/core/app.py `_handle_movement`). -/

/-- The per-unit action-point checks of the movement loop; `none` means
the request is rejected before any mutation (an out-of-range slot index
raises in Python and equally mutates nothing). -/
def collectMoving (store : List (Nat × UnitState)) (units : List Nat)
    (idxs : List Nat) (cost : Int) : Option (List Nat) :=
  match idxs with
  | [] => some []
  | i :: rest =>
    match units.get? i with
    | none => none
    | some uid =>
      match sLookup store uid with
      | none => none
      | some u =>
        if u.mp ≤ 0 then none
        else if u.mp < cost then none
        else (collectMoving store units rest cost).map (fun l => uid :: l)

/-- `_handle_movement`; the path-cost engine is the injected collaborator
`pathCost` (`map_manager.find_path_cost`). -/
def handleMovement (pathCost : Int → Int → Int) (playerCountry : String)
    (σ : GameState) (selected : List (Int × Nat)) (targetPid : Int) : GameState :=
  match dedupFirst (selected.map Prod.fst) with
  | [] => σ
  | src :: more =>
    if more ≠ [] then σ
    else
      match getProv σ src, getProv σ targetPid with
      | some source, some target =>
        if source.province_id = targetPid then σ
        else
          let selected_indices := sortNat (selected.filterMap
            (fun pu => if pu.1 = src then some pu.2 else none))
          if selected_indices = [] then σ
          else
            let path_cost := pathCost src targetPid
            if path_cost > 100 then σ
            else
              match collectMoving σ.store source.units selected_indices path_cost with
              | none => σ
              | some moving =>
                if target.units.length + moving.length > 3 then σ
                else
                  let σ1 := setProv σ src (fun p =>
                    { p with units := (p.units.enum.filter
                        (fun iu => ! (selected_indices.contains iu.1))).map Prod.snd })
                  let σ2 := { σ1 with store := (moving.foldl
                      (fun st uid => sUpdate st uid
                        (fun u => { u with mp := u.mp - path_cost })) σ1.store) }
                  let σ3 := setProv σ2 targetPid
                    (fun p => { p with units := p.units ++ moving })
                  if moving ≠ [] then
                    setProv σ3 targetPid (fun p => { p with country := playerCountry })
                  else σ3
      | _, _ => σ

/-! ### Combat request validation (src/core/app.py `_handle_combat`).
Centers are the per-province `center_cache` values (populated by
`set_hex_side` before any combat is reachable), passed as a map. -/

/-- The attacker-validation loop: accumulates total attack power and the
participating `(province_id, unit_id)` pairs; `none` rejects the whole
request (attacker out of range, or out of action points; an
out-of-range slot index raises in Python and equally mutates nothing). -/
def combatStep (defs : String → UnitDefinition) (centers : Int → ℚ × ℚ)
    (hex_side : ℚ) (σ : GameState) (target : Province)
    (defenderTypes : List String) (acc : Option (ℚ × List (Int × Nat)))
    (pu : Int × Nat) : Option (ℚ × List (Int × Nat)) :=
  match acc with
  | none => none
  | some (ta, parts) =>
    match getProv σ pu.1 with
    | none => some (ta, parts)
    | some province =>
      match province.units.get? pu.2 with
      | none => none
      | some uid =>
        match sLookup σ.store uid with
        | none => none
        | some u =>
          let definition := defs u.unit_type
          if distSq (centers province.province_id) (centers target.province_id) >
              ((definition.range : ℚ))^2 * (3 * hex_side^2) * (121/100) then none
          else if u.mp < 1 then none
          else
            some (ta + (unitPowers defs u).1 + matchupBonus u.unit_type defenderTypes,
              parts ++ [(province.province_id, uid)])

def combatLoop (defs : String → UnitDefinition) (centers : Int → ℚ × ℚ)
    (hex_side : ℚ) (σ : GameState) (target : Province)
    (defenderTypes : List String) (selected : List (Int × Nat)) :
    Option (ℚ × List (Int × Nat)) :=
  selected.foldl (combatStep defs centers hex_side σ target defenderTypes)
    (some (0, []))

/-- `_handle_combat` up to the dice roll: validates the request and
computes the CRT column; `none` = rejected, no mutation ever happens. -/
def handleCombat (defs : String → UnitDefinition) (centers : Int → ℚ × ℚ)
    (hex_side : ℚ) (σ : GameState) (selected : List (Int × Nat))
    (targetPid : Int) : Option (List (Int × Nat) × Int) :=
  match getProv σ targetPid with
  | none => none
  | some target =>
    let defenderTypes := target.units.filterMap
      (fun uid => (sLookup σ.store uid).map (fun u => u.unit_type))
    match combatLoop defs centers hex_side σ target defenderTypes selected with
    | none => none
    | some (total_attack, parts) =>
      if total_attack ≤ 0 then none
      else
        let total_defense := target.units.foldl (fun td uid =>
          match sLookup σ.store uid with
          | some u => td + (unitPowers defs u).2
          | none => td) (0 : ℚ)
        let total_defense := if total_defense ≤ 1/10 then (1/10 : ℚ) else total_defense
        let neighbor_count := ((dedupFirst (parts.map Prod.fst)).filter (fun pid =>
          (getProv σ pid).isSome &&
            decide (distSq (centers pid) (centers target.province_id) <
              (3 * hex_side^2) * (121/100)))).length
        let is_flanked : Bool := decide (neighbor_count ≥ 2)
        some (parts, get_ratio_column total_attack total_defense is_flanked)

/-- The combat pipeline as driven by the UI: validate, then (only when
valid) resolve with the rolled dice. -/
def combatOperation (defs : String → UnitDefinition) (centers : Int → ℚ × ℚ)
    (hex_side : ℚ) (playerCountry : String) (adjacency : Int → List Int)
    (σ : GameState) (selected : List (Int × Nat)) (targetPid : Int)
    (dice : Int) : GameState :=
  match handleCombat defs centers hex_side σ selected targetPid with
  | none => σ
  | some (parts, col) =>
    resolveCombatFull defs playerCountry adjacency σ dice col parts targetPid

/-! Concrete failing input for the dead-unit invariant: one attacker on
province 10, one defender with 1 hp on province 1, an empty unowned
plain neighbor 2.  The outcome `D1R` (dice 6, column 5) first reduces
the defender to 0 hp, then `_handle_retreat` moves the whole stack —
including the dead unit — to province 2, which `_cleanup_dead_units`
never touches (it only filters attacker tiles and the defender tile). -/

def c6Defs : String → UnitDefinition := fun _ => ⟨2, 3, 2, 1⟩

def c6Adj : Int → List Int := fun pid => if pid = 1 then [2] else []

def c6State : GameState :=
  ⟨[⟨1, "D", "WEI", "plain", 0, 0, 0, 0, [0]⟩,
    ⟨2, "N", "", "plain", 0, 0, 1, 0, []⟩,
    ⟨10, "A", "SHU", "plain", 0, 0, 0, 1, [1]⟩],
   [(0, ⟨"infantry", 1, false, 0, 2⟩), (1, ⟨"cavalry", 2, false, 0, 2⟩)]⟩

/-- C6 (code bug evidence): after the combat resolution with outcome
`D1R`, the retreat destination (province 2) holds unit 0 whose hp is 0 —
a dead unit survives on the map, contradicting the spec's invariant that
units with hp ≤ 0 are removed wherever they are. -/
theorem dead_unit_survives_on_retreat_destination :
    (getProv (resolveCombatFull c6Defs "SHU" c6Adj c6State 6 5 [(10, 1)] 1) 2).map
      Province.units = some [0] ∧
    (sLookup (resolveCombatFull c6Defs "SHU" c6Adj c6State 6 5 [(10, 1)] 1).store 0).map
      UnitState.hp = some 0 := by
  decide

/-! ### C7 support: rejection conditions and their lemmas. -/

/-- One attacking unit fails the range check or has no action points:
`_handle_combat` rejects the whole request. -/
def combatRejectsUnit (defs : String → UnitDefinition) (centers : Int → ℚ × ℚ)
    (hex_side : ℚ) (σ : GameState) (target : Province) (pu : Int × Nat) : Prop :=
  ∃ province, getProv σ pu.1 = some province ∧
  ∃ uid, province.units.get? pu.2 = some uid ∧
  ∃ u, sLookup σ.store uid = some u ∧
    (distSq (centers province.province_id) (centers target.province_id) >
       ((defs u.unit_type).range : ℚ)^2 * (3 * hex_side^2) * (121/100) ∨ u.mp < 1)

/-- The selected slot `i` of the movement request is rejected: the unit
there has no action points or not enough for the path cost. -/
def moveRejectsIdx (store : List (Nat × UnitState)) (units : List Nat)
    (cost : Int) (i : Nat) : Prop :=
  ∃ uid, units.get? i = some uid ∧
  ∃ u, sLookup store uid = some u ∧ (u.mp ≤ 0 ∨ u.mp < cost)

lemma foldl_combatStep_none (defs : String → UnitDefinition) (centers : Int → ℚ × ℚ)
    (hex_side : ℚ) (σ : GameState) (target : Province) (defenderTypes : List String) :
    ∀ l : List (Int × Nat),
      l.foldl (combatStep defs centers hex_side σ target defenderTypes) none = none := by
  intro l
  induction l with
  | nil => rfl
  | cons q rest ih => simpa [combatStep] using ih

lemma combatLoop_rejects (defs : String → UnitDefinition) (centers : Int → ℚ × ℚ)
    (hex_side : ℚ) (σ : GameState) (target : Province) (defenderTypes : List String) :
    ∀ (selected : List (Int × Nat)) (acc : Option (ℚ × List (Int × Nat))),
      (∃ pu ∈ selected, combatRejectsUnit defs centers hex_side σ target pu) →
      selected.foldl (combatStep defs centers hex_side σ target defenderTypes) acc = none := by
  intro selected
  induction selected with
  | nil => rintro acc ⟨pu, hmem, hrej⟩; cases hmem
  | cons q rest ih =>
    rintro acc ⟨pu, hmem, hrej⟩
    rcases acc with _ | a
    · exact foldl_combatStep_none _ _ _ _ _ _ _
    rcases List.mem_cons.mp hmem with hq | hrest
    · subst hq
      obtain ⟨province, hprov, uid, huid, u, hu, hfail⟩ := hrej
      have hstep : combatStep defs centers hex_side σ target defenderTypes (some a) pu
          = none := by
        rcases a with ⟨ta, parts⟩
        simp only [combatStep, hprov, huid, hu]
        by_cases hr : distSq (centers province.province_id) (centers target.province_id) >
            ((defs u.unit_type).range : ℚ)^2 * (3 * hex_side^2) * (121/100)
        · rw [if_pos hr]
        · rw [if_neg hr]
          have hmp : u.mp < 1 := by
            rcases hfail with hfail | hfail
            · exact absurd hfail hr
            · exact hfail
          rw [if_pos hmp]
      rw [List.foldl_cons, hstep]
      exact foldl_combatStep_none _ _ _ _ _ _ _
    · rw [List.foldl_cons]
      cases hstep : combatStep defs centers hex_side σ target defenderTypes (some a) q with
      | none => exact foldl_combatStep_none _ _ _ _ _ _ _
      | some a2 => exact ih _ ⟨pu, hrest, hrej⟩

lemma collectMoving_rejects (store : List (Nat × UnitState)) (units : List Nat)
    (cost : Int) :
    ∀ idxs : List Nat, (∃ i ∈ idxs, moveRejectsIdx store units cost i) →
      collectMoving store units idxs cost = none := by
  intro idxs
  induction idxs with
  | nil => rintro ⟨i, hmem, hrej⟩; cases hmem
  | cons j rest ih =>
    rintro ⟨i, hmem, hrej⟩
    rcases List.mem_cons.mp hmem with hj | hrest
    · subst hj
      obtain ⟨uid, huid, u, hu, hfail⟩ := hrej
      simp only [collectMoving, huid, hu]
      by_cases h0 : u.mp ≤ 0
      · rw [if_pos h0]
      · rw [if_neg h0]
        have hlt : u.mp < cost := by
          rcases hfail with hfail | hfail
          · exact absurd hfail h0
          · exact hfail
        rw [if_pos hlt]
    · simp only [collectMoving]
      cases huid : units.get? j with
      | none => rfl
      | some uid =>
        dsimp only
        cases hu : sLookup store uid with
        | none => rfl
        | some u =>
          dsimp only
          split_ifs
          · rfl
          · rfl
          · rw [ih ⟨i, hrest, hrej⟩]
            rfl

lemma dedupFirstAux_all_seen (seen : List Int) :
    ∀ l : List Int, (∀ x ∈ l, x ∈ seen) → dedupFirstAux seen l = [] := by
  intro l
  induction l with
  | nil => intro _; rfl
  | cons x xs ih =>
    intro h
    simp only [dedupFirstAux, if_pos (h x (List.mem_cons_self _ _))]
    exact ih (fun y hy => h y (List.mem_cons_of_mem _ hy))

lemma dedupFirstAux_seen_mono :
    ∀ (l : List Int) (seen seen2 : List Int), (∀ x ∈ seen, x ∈ seen2) →
      (∀ x ∈ l, x ∈ seen) → dedupFirstAux seen2 l = [] := by
  intro l seen seen2 hmono hall
  exact dedupFirstAux_all_seen seen2 l (fun x hx => hmono x (hall x hx))

lemma dedupFirst_const {selected : List (Int × Nat)} {src : Int}
    (hne : selected ≠ []) (hall : ∀ pu ∈ selected, pu.1 = src) :
    dedupFirst (selected.map Prod.fst) = [src] := by
  cases selected with
  | nil => exact absurd rfl hne
  | cons q rest =>
    have hq : q.1 = src := hall q (List.mem_cons_self _ _)
    simp only [List.map_cons, dedupFirst, dedupFirstAux, List.not_mem_nil, if_false, hq]
    rw [dedupFirstAux_all_seen [src]]
    intro x hx
    obtain ⟨pu, hpu, rfl⟩ := List.mem_map.mp hx
    simp [hall pu (List.mem_cons_of_mem _ hpu)]

lemma filterMap_const {selected : List (Int × Nat)} {src : Int}
    (hall : ∀ pu ∈ selected, pu.1 = src) :
    selected.filterMap (fun pu => if pu.1 = src then some pu.2 else none) =
      selected.map Prod.snd := by
  induction selected with
  | nil => rfl
  | cons q rest ih =>
    have hq : q.1 = src := hall q (List.mem_cons_self _ _)
    simp only [List.filterMap_cons, List.map_cons, if_pos hq]
    rw [ih (fun pu hpu => hall pu (List.mem_cons_of_mem _ hpu))]

lemma mem_insertNat {a x : Nat} : ∀ {l : List Nat}, a ∈ insertNat x l ↔ a = x ∨ a ∈ l := by
  intro l
  induction l with
  | nil => simp [insertNat]
  | cons y ys ih =>
    simp only [insertNat]
    split_ifs
    · simp
    · rw [List.mem_cons, ih, List.mem_cons]
      tauto

lemma mem_sortNat {a : Nat} : ∀ {l : List Nat}, a ∈ sortNat l ↔ a ∈ l := by
  intro l
  induction l with
  | nil => simp [sortNat]
  | cons x xs ih =>
    simp only [sortNat]
    rw [mem_insertNat, ih, List.mem_cons]

/-- C7: a rejected combat or movement request leaves the entire game
state unchanged.  Combat: a rejected request (`handleCombat = none`,
which covers out-of-range attackers, attackers without action points,
and non-positive total attack power — the last two implications name
those causes) never reaches the resolver.  Movement: unreachable
destination, insufficient action points, and stack overflow each return
the state untouched. -/
theorem rejected_requests_do_not_mutate :
    (∀ (defs : String → UnitDefinition) (centers : Int → ℚ × ℚ) (hex_side : ℚ)
       (playerCountry : String) (adjacency : Int → List Int) (σ : GameState)
       (selected : List (Int × Nat)) (targetPid dice : Int),
       handleCombat defs centers hex_side σ selected targetPid = none →
       combatOperation defs centers hex_side playerCountry adjacency σ selected
         targetPid dice = σ) ∧
    (∀ (defs : String → UnitDefinition) (centers : Int → ℚ × ℚ) (hex_side : ℚ)
       (σ : GameState) (selected : List (Int × Nat)) (targetPid : Int)
       (target : Province),
       getProv σ targetPid = some target →
       (∃ pu ∈ selected, combatRejectsUnit defs centers hex_side σ target pu) →
       handleCombat defs centers hex_side σ selected targetPid = none) ∧
    (∀ (defs : String → UnitDefinition) (centers : Int → ℚ × ℚ) (hex_side : ℚ)
       (σ : GameState) (selected : List (Int × Nat)) (targetPid : Int)
       (target : Province) (ta : ℚ) (parts : List (Int × Nat)),
       getProv σ targetPid = some target →
       combatLoop defs centers hex_side σ target
         (target.units.filterMap
           (fun uid => (sLookup σ.store uid).map (fun u => u.unit_type)))
         selected = some (ta, parts) →
       ta ≤ 0 →
       handleCombat defs centers hex_side σ selected targetPid = none) ∧
    (∀ (pathCost : Int → Int → Int) (playerCountry : String) (σ : GameState)
       (selected : List (Int × Nat)) (src targetPid : Int)
       (source target : Province),
       selected ≠ [] → (∀ pu ∈ selected, pu.1 = src) →
       getProv σ src = some source → getProv σ targetPid = some target →
       src ≠ targetPid →
       ((pathCost src targetPid > 100 →
          handleMovement pathCost playerCountry σ selected targetPid = σ) ∧
        ((∃ i ∈ selected.map Prod.snd,
            moveRejectsIdx σ.store source.units (pathCost src targetPid) i) →
          handleMovement pathCost playerCountry σ selected targetPid = σ) ∧
        (∀ moving,
          collectMoving σ.store source.units (sortNat (selected.map Prod.snd))
            (pathCost src targetPid) = some moving →
          target.units.length + moving.length > 3 →
          handleMovement pathCost playerCountry σ selected targetPid = σ))) := by
  refine ⟨?_, ?_, ?_, ?_⟩
  · intro defs centers hex_side playerCountry adjacency σ selected targetPid dice h
    simp only [combatOperation, h]
  · intro defs centers hex_side σ selected targetPid target htgt hex
    have hnone : combatLoop defs centers hex_side σ target
        (target.units.filterMap
          (fun uid => (sLookup σ.store uid).map (fun u => u.unit_type)))
        selected = none :=
      combatLoop_rejects defs centers hex_side σ target _ selected (some (0, [])) hex
    simp only [handleCombat, htgt]
    rw [hnone]
  · intro defs centers hex_side σ selected targetPid target ta parts htgt hloop hta
    simp only [handleCombat, htgt]
    rw [hloop]
    dsimp only
    rw [if_pos hta]
  · intro pathCost playerCountry σ selected src targetPid source target hne hall
      hsrc htgt hdiff
    refine ⟨?_, ?_, ?_⟩
    · intro hcost
      simp only [handleMovement]
      rw [dedupFirst_const hne hall]
      dsimp only
      rw [if_neg (fun hcon => hcon rfl), hsrc, htgt]
      dsimp only
      rw [if_neg (by rw [getProv_id hsrc]; exact hdiff), filterMap_const hall]
      by_cases hidx : sortNat (selected.map Prod.snd) = []
      · rw [if_pos hidx]
      · rw [if_neg hidx, if_pos hcost]
    · intro hex
      simp only [handleMovement]
      rw [dedupFirst_const hne hall]
      dsimp only
      rw [if_neg (fun hcon => hcon rfl), hsrc, htgt]
      dsimp only
      rw [if_neg (by rw [getProv_id hsrc]; exact hdiff), filterMap_const hall]
      by_cases hidx : sortNat (selected.map Prod.snd) = []
      · rw [if_pos hidx]
      · rw [if_neg hidx]
        by_cases hcost : pathCost src targetPid > 100
        · rw [if_pos hcost]
        · rw [if_neg hcost]
          obtain ⟨i, hmem, hrej⟩ := hex
          rw [collectMoving_rejects σ.store source.units (pathCost src targetPid) _
            ⟨i, mem_sortNat.mpr hmem, hrej⟩]
    · intro moving hcollect hstack
      simp only [handleMovement]
      rw [dedupFirst_const hne hall]
      dsimp only
      rw [if_neg (fun hcon => hcon rfl), hsrc, htgt]
      dsimp only
      rw [if_neg (by rw [getProv_id hsrc]; exact hdiff), filterMap_const hall]
      by_cases hidx : sortNat (selected.map Prod.snd) = []
      · rw [if_pos hidx]
      · rw [if_neg hidx]
        by_cases hcost : pathCost src targetPid > 100
        · rw [if_pos hcost]
        · rw [if_neg hcost, hcollect]
          dsimp only
          rw [if_pos hstack]

def c7centers : Int → ℚ × ℚ := fun pid => ((pid : ℚ), 0)

def c7target : Province := ⟨2, "N", "", "plain", 0, 0, 1, 0, []⟩

theorem rejected_requests_do_not_mutate_witness :
    combatOperation cexDefs c7centers 1 "SHU" cexAdj cexState [] 1 6 = cexState ∧
    handleCombat cexDefs c7centers (1/10) cexState [(1, 0)] 2 = none ∧
    handleCombat cexDefs c7centers 1 cexState [] 1 = none ∧
    handleMovement (fun _ _ => 101) "SHU" cexState [(1, 0)] 2 = cexState := by
  have h := rejected_requests_do_not_mutate
  refine ⟨h.1 cexDefs c7centers 1 "SHU" cexAdj cexState [] 1 6 (by decide),
    h.2.1 cexDefs c7centers (1/10) cexState [(1, 0)] 2 c7target rfl
      ⟨(1, 0), List.mem_cons_self _ _,
        cexDefenderProv, rfl, 0, rfl, ⟨"infantry", 1, false, 0, 2⟩, rfl,
        Or.inl (by norm_num [distSq, c7centers, cexDefs, cexDefenderProv, c7target])⟩,
    h.2.2.1 cexDefs c7centers 1 cexState [] 1 cexDefenderProv 0 [] rfl rfl (le_refl 0),
    (h.2.2.2 (fun _ _ => 101) "SHU" cexState [(1, 0)] 1 2 cexDefenderProv c7target
      (by decide) (by decide) rfl rfl (by decide)).1 (by norm_num)⟩

/-! ### C8 support: stack-limit preservation helpers. -/

lemma mem_setProv {σ : GameState} {pid : Int} {f : Province → Province} {p : Province} :
    p ∈ (setProv σ pid f).provinces ↔
      ∃ q ∈ σ.provinces, p = if q.province_id == pid then f q else q := by
  simp only [setProv, List.mem_map]
  constructor
  · rintro ⟨q, hq, rfl⟩; exact ⟨q, hq, rfl⟩
  · rintro ⟨q, hq, rfl⟩; exact ⟨q, hq, rfl⟩

lemma setProv_units_bound {σ : GameState} {pid : Int} {f : Province → Province}
    (h3 : ∀ p ∈ σ.provinces, p.units.length ≤ 3)
    (hf : ∀ p ∈ σ.provinces, p.province_id = pid → (f p).units.length ≤ 3) :
    ∀ p ∈ (setProv σ pid f).provinces, p.units.length ≤ 3 := by
  intro p hp
  obtain ⟨q, hq, rfl⟩ := mem_setProv.mp hp
  by_cases hid : q.province_id == pid
  · rw [if_pos hid]
    exact hf q hq (by simpa using hid)
  · rw [if_neg hid]
    exact h3 q hq

lemma setProv_map_id {σ : GameState} {pid : Int} {f : Province → Province}
    (hf : ∀ p, (f p).province_id = p.province_id) :
    (setProv σ pid f).provinces.map Province.province_id =
      σ.provinces.map Province.province_id := by
  simp only [setProv, List.map_map]
  apply List.map_congr_left
  intro p _
  simp only [Function.comp_apply]
  by_cases h : p.province_id == pid
  · rw [if_pos h, hf]
  · rw [if_neg h]

lemma getProv_mem {σ : GameState} {pid : Int} {p : Province}
    (h : getProv σ pid = some p) : p ∈ σ.provinces :=
  List.mem_of_find?_eq_some h

lemma find?_id_unique :
    ∀ (l : List Province), (l.map Province.province_id).Nodup →
      ∀ {pid : Int} {p q : Province},
        l.find? (fun r => r.province_id == pid) = some p →
        q ∈ l → q.province_id = pid → q = p := by
  intro l
  induction l with
  | nil => intro _ pid p q h; cases h
  | cons r rest ih =>
    intro hnd pid p q hfind hq hqid
    have hnd0 : (r.province_id :: rest.map Province.province_id).Nodup := by
      simpa using hnd
    have hhead : r.province_id ∉ rest.map Province.province_id :=
      (List.nodup_cons.mp hnd0).1
    have htail : (rest.map Province.province_id).Nodup :=
      (List.nodup_cons.mp hnd0).2
    by_cases hr : r.province_id = pid
    · rw [List.find?_cons_of_pos _ (by simpa using hr)] at hfind
      rw [Option.some.injEq] at hfind
      subst hfind
      rcases List.mem_cons.mp hq with hq | hq
      · exact hq
      · exfalso
        apply hhead
        have hmem : q.province_id ∈ rest.map Province.province_id :=
          List.mem_map.mpr ⟨q, hq, rfl⟩
        rw [hqid] at hmem
        rw [hr]
        exact hmem
    · rw [List.find?_cons_of_neg _ (by simpa using hr)] at hfind
      rcases List.mem_cons.mp hq with hq | hq
      · subst hq
        exact absurd hqid hr
      · exact ih htail hfind hq hqid

lemma getProv_unique {σ : GameState}
    (hnodup : (σ.provinces.map Province.province_id).Nodup)
    {pid : Int} {p q : Province} (hp : getProv σ pid = some p)
    (hq : q ∈ σ.provinces) (hqid : q.province_id = pid) : q = p :=
  find?_id_unique σ.provinces hnodup hp hq hqid

/-- The invariant pack carried through the advance fold: unique ids,
global stack bound 3, defender-tile stack bounded by the mover count,
and at most 2 movers. -/
def AdvInv (targetPid : Int) (acc : GameState × Nat) : Prop :=
  (acc.1.provinces.map Province.province_id).Nodup ∧
  (∀ p ∈ acc.1.provinces, p.units.length ≤ 3) ∧
  (∀ p ∈ acc.1.provinces, p.province_id = targetPid → p.units.length ≤ acc.2) ∧
  acc.2 ≤ 2

lemma advanceStep_inv (playerCountry : String) (targetPid : Int)
    (acc : GameState × Nat) (pu : Int × Nat) (h : AdvInv targetPid acc) :
    AdvInv targetPid (advanceStep playerCountry targetPid acc pu) := by
  obtain ⟨hnd, h3, htgt, hm⟩ := h
  by_cases h2 : acc.2 ≥ 2
  · rw [advanceStep, if_pos h2]
    exact ⟨hnd, h3, htgt, hm⟩
  rw [advanceStep, if_neg h2]
  rcases hgp : getProv acc.1 pu.1 with _ | prov
  · exact ⟨hnd, h3, htgt, hm⟩
  rcases hlk : sLookup acc.1.store pu.2 with _ | u
  · exact ⟨hnd, h3, htgt, hm⟩
  dsimp only
  by_cases hcond : 0 < u.hp ∧ pu.2 ∈ prov.units
  · rw [if_pos hcond]
    have hm1 : acc.2 ≤ 1 := by omega
    have hid1 : ∀ p : Province,
        ({ p with units := p.units.erase pu.2 } : Province).province_id =
          p.province_id := fun _ => rfl
    have hid2 : ∀ p : Province,
        ({ p with units := p.units ++ [pu.2], country := playerCountry } :
          Province).province_id = p.province_id :=
      fun _ => rfl
    have hnd1 : ((setProv acc.1 pu.1
        (fun p => { p with units := p.units.erase pu.2 })).provinces.map
          Province.province_id).Nodup := by
      rw [setProv_map_id hid1]; exact hnd
    have h31 : ∀ p ∈ (setProv acc.1 pu.1
        (fun p => { p with units := p.units.erase pu.2 })).provinces,
        p.units.length ≤ 3 := by
      apply setProv_units_bound h3
      intro p hp _
      exact le_trans (List.length_erase_le _ _) (h3 p hp)
    have htgt1 : ∀ p ∈ (setProv acc.1 pu.1
        (fun p => { p with units := p.units.erase pu.2 })).provinces,
        p.province_id = targetPid → p.units.length ≤ acc.2 := by
      intro p hp hpid
      obtain ⟨q, hq, rfl⟩ := mem_setProv.mp hp
      by_cases hb : q.province_id == pu.1
      · rw [if_pos hb] at hpid ⊢
        exact le_trans (List.length_erase_le _ _) (htgt q hq hpid)
      · rw [if_neg hb] at hpid ⊢
        exact htgt q hq hpid
    refine ⟨?_, ?_, ?_, by omega⟩
    · rw [setProv_map_id hid2]; exact hnd1
    · apply setProv_units_bound h31
      intro p hp hpid
      have := htgt1 p hp hpid
      simp only [List.length_append, List.length_singleton]
      omega
    · intro p hp hpid
      obtain ⟨q, hq, rfl⟩ := mem_setProv.mp hp
      by_cases hb : q.province_id == targetPid
      · rw [if_pos hb] at hpid ⊢
        have := htgt1 q hq (by simpa using hb)
        simp only [List.length_append, List.length_singleton]
        omega
      · rw [if_neg hb] at hpid ⊢
        exact absurd hpid (by simpa using hb)
  · rw [if_neg hcond]
    exact ⟨hnd, h3, htgt, hm⟩

lemma advance_fold_inv (playerCountry : String) (targetPid : Int) :
    ∀ (attackers : List (Int × Nat)) (acc : GameState × Nat),
      AdvInv targetPid acc →
      AdvInv targetPid
        (attackers.foldl (advanceStep playerCountry targetPid) acc) := by
  intro attackers
  induction attackers with
  | nil => intro acc h; exact h
  | cons pu rest ih =>
    intro acc h
    rw [List.foldl_cons]
    exact ih _ (advanceStep_inv playerCountry targetPid acc pu h)

lemma movement_mutation_bound {σ : GameState} {src targetPid : Int}
    {target : Province} {f1 : Province → Province} {st : List (Nat × UnitState)}
    {moving : List Nat} {pc : String}
    (hnd : (σ.provinces.map Province.province_id).Nodup)
    (h3 : ∀ p ∈ σ.provinces, p.units.length ≤ 3)
    (htgt : getProv σ targetPid = some target)
    (hne : src ≠ targetPid)
    (hf1id : ∀ p, (f1 p).province_id = p.province_id)
    (hf1len : ∀ p, (f1 p).units.length ≤ p.units.length)
    (hstack : target.units.length + moving.length ≤ 3) :
    ∀ p ∈ (let σ1 := setProv σ src f1
           let σ2 : GameState := { σ1 with store := st }
           let σ3 := setProv σ2 targetPid
             (fun p => { p with units := p.units ++ moving })
           if moving ≠ [] then
             setProv σ3 targetPid (fun p => { p with country := pc })
           else σ3).provinces, p.units.length ≤ 3 := by
  dsimp only
  have hb1 : ∀ q ∈ (setProv σ src f1).provinces, q.units.length ≤ 3 :=
    setProv_units_bound h3 (fun q hq _ => le_trans (hf1len q) (h3 q hq))
  have hbtgt : ∀ q ∈ (setProv σ src f1).provinces, q.province_id = targetPid →
      q.units.length ≤ target.units.length := by
    intro q hq hqid
    obtain ⟨r, hr, rfl⟩ := mem_setProv.mp hq
    by_cases hb : r.province_id == src
    · rw [if_pos hb] at hqid ⊢
      rw [hf1id r] at hqid
      have hrs : r.province_id = src := by simpa using hb
      exact absurd (hrs ▸ hqid) hne
    · rw [if_neg hb] at hqid ⊢
      have hq_eq : r = target := getProv_unique hnd htgt hr hqid
      rw [hq_eq]
  have hb3 : ∀ q ∈ (setProv ({ setProv σ src f1 with store := st } : GameState)
      targetPid (fun p => { p with units := p.units ++ moving })).provinces,
      q.units.length ≤ 3 := by
    apply setProv_units_bound
    · exact hb1
    · intro q hq hqid
      simp only [List.length_append]
      have := hbtgt q hq hqid
      omega
  by_cases hmv : moving ≠ []
  · rw [if_pos hmv]
    exact setProv_units_bound hb3 (fun q hq _ => hb3 q hq)
  · rw [if_neg hmv]
    exact hb3

/-- C8: if every stack has at most 3 units before an operation, every
stack still has at most 3 units afterwards — movement rejects overfull
destinations, retreat skips them, and advance moves at most 2 units into
the (empty) defender tile.  Province ids are assumed unique, as
guaranteed by the CSV loader's dict keying. -/
theorem stack_limit_preserved :
    (∀ (pathCost : Int → Int → Int) (playerCountry : String) (σ : GameState)
       (selected : List (Int × Nat)) (targetPid : Int),
       (σ.provinces.map Province.province_id).Nodup →
       (∀ p ∈ σ.provinces, p.units.length ≤ 3) →
       ∀ p ∈ (handleMovement pathCost playerCountry σ selected targetPid).provinces,
         p.units.length ≤ 3) ∧
    (∀ (defs : String → UnitDefinition) (adjacency : Int → List Int)
       (σ : GameState) (pid : Int),
       (σ.provinces.map Province.province_id).Nodup →
       (∀ p ∈ σ.provinces, p.units.length ≤ 3) →
       ∀ p ∈ (handleRetreat defs adjacency σ pid).provinces, p.units.length ≤ 3) ∧
    (∀ (playerCountry : String) (σ : GameState) (attackers : List (Int × Nat))
       (targetPid : Int) (target : Province),
       (σ.provinces.map Province.province_id).Nodup →
       getProv σ targetPid = some target → target.units = [] →
       (∀ p ∈ σ.provinces, p.units.length ≤ 3) →
       ∀ p ∈ (advanceAfterCombat playerCountry σ attackers targetPid).provinces,
         p.units.length ≤ 3) := by
  refine ⟨?_, ?_, ?_⟩
  · intro pathCost playerCountry σ selected targetPid hnd h3
    simp only [handleMovement]
    rcases hdd : dedupFirst (selected.map Prod.fst) with _ | ⟨src, more⟩
    · exact h3
    · dsimp only
      by_cases hmore : more ≠ []
      · rw [if_pos hmore]; exact h3
      rw [if_neg hmore]
      rcases hsrc : getProv σ src with _ | source
      · exact h3
      rcases htgt : getProv σ targetPid with _ | target
      · exact h3
      dsimp only
      by_cases hpid : source.province_id = targetPid
      · rw [if_pos hpid]; exact h3
      rw [if_neg hpid]
      by_cases hidx : sortNat (selected.filterMap
          (fun pu => if pu.1 = src then some pu.2 else none)) = []
      · rw [if_pos hidx]; exact h3
      rw [if_neg hidx]
      by_cases hcost : pathCost src targetPid > 100
      · rw [if_pos hcost]; exact h3
      rw [if_neg hcost]
      generalize collectMoving σ.store source.units (sortNat (selected.filterMap
          (fun pu => if pu.1 = src then some pu.2 else none)))
          (pathCost src targetPid) = cmres
      rcases cmres with _ | moving
      · exact h3
      dsimp only
      by_cases hstack : target.units.length + moving.length > 3
      · rw [if_pos hstack]; exact h3
      rw [if_neg hstack]
      have hsrcid : src ≠ targetPid := by
        rw [← getProv_id hsrc]; exact hpid
      exact movement_mutation_bound hnd h3 htgt hsrcid (fun _ => rfl)
        (fun p => by
          simp only [List.length_map]
          exact le_trans (List.length_filter_le _ _) (le_of_eq List.enum_length))
        (by omega)
  · intro defs adjacency σ pid hnd h3
    simp only [handleRetreat]
    rcases hp : getProv σ pid with _ | prov
    · exact h3
    dsimp only
    by_cases hu : prov.units = []
    · rw [if_pos hu]; exact h3
    rw [if_neg hu]
    rcases hd : retreatDestinations adjacency σ prov with _ | ⟨d, rest⟩
    · exact h3
    dsimp only
    have hdmem : d ∈ retreatDestinations adjacency σ prov := by
      rw [hd]; exact List.mem_cons_self _ _
    obtain ⟨hadj, destP, hgd, hc, hroom, hrough⟩ := mem_retreatDestinations.mp hdmem
    have hb1 : ∀ q ∈ (setProv σ d
        (fun p => { p with units := p.units ++ prov.units })).provinces,
        q.units.length ≤ 3 := by
      apply setProv_units_bound h3
      intro q hq hqid
      have hq_eq : q = destP := getProv_unique hnd hgd hq hqid
      simp only [List.length_append]
      rw [hq_eq]
      omega
    apply setProv_units_bound hb1
    intro q hq _
    simp
  · intro playerCountry σ attackers targetPid target hnd htgt hempty h3
    have hinv : AdvInv targetPid (σ, 0) := by
      refine ⟨hnd, h3, ?_, by omega⟩
      intro p hp hpid
      have hpt : p = target := getProv_unique hnd htgt hp hpid
      simp [hpt, hempty]
    have h := advance_fold_inv playerCountry targetPid attackers (σ, 0) hinv
    simp only [advanceAfterCombat]
    exact h.2.1

theorem stack_limit_preserved_witness :
    cexDefenderProv.units.length ≤ 3 ∧
    (⟨2, "N", "", "plain", 0, 0, 1, 0, [0]⟩ : Province).units.length ≤ 3 ∧
    (⟨2, "N", "SHU", "plain", 0, 0, 1, 0, [0]⟩ : Province).units.length ≤ 3 :=
  ⟨stack_limit_preserved.1 (fun _ _ => 1) "SHU" cexState [] 5 (by decide) (by decide)
      cexDefenderProv (by decide),
   stack_limit_preserved.2.1 cexDefs cexAdj cexState 1 (by decide) (by decide)
      ⟨2, "N", "", "plain", 0, 0, 1, 0, [0]⟩ (by decide),
   stack_limit_preserved.2.2 "SHU" cexState [(1, 0)] 2 c7target (by decide) rfl rfl
      (by decide) ⟨2, "N", "SHU", "plain", 0, 0, 1, 0, [0]⟩ (by decide)⟩

/-! ### Adjacency graph builder (src/map/map_manager.py
`_build_adjacency_graph`, `_segments_intersect`).

Float distances are idealised to exact rationals; every comparison
`dist < t` with `t = hex_side*sqrt(3)*factor ≥ 0` is carried out as
`distSq < hex_side^2*3*factor^2`, which is equivalent for non-negative
quantities and stays in ℚ.  `center_cache` is the per-province cached
pixel center, modelled as an optional point (`None` before
`set_hex_side` runs). -/

/-- The `ccw` helper of `_segments_intersect` (strict orientation test). -/
def ccw (p1 p2 p3 : ℚ × ℚ) : Bool :=
  decide ((p3.2 - p1.2) * (p2.1 - p1.1) > (p2.2 - p1.2) * (p3.1 - p1.1))

/-- `_segments_intersect`: strict crossing of segments AB and CD. -/
def segmentsIntersect (A B C D : ℚ × ℚ) : Bool :=
  (ccw A C D != ccw B C D) && (ccw A B C != ccw A B D)

/-- Consecutive-point segments of one polyline
(`for i in range(len(polyline) - 1)`). -/
def segsOfPoly : List (ℚ × ℚ) → List ((ℚ × ℚ) × (ℚ × ℚ))
  | a :: b :: rest => (a, b) :: segsOfPoly (b :: rest)
  | _ => []

/-- All segments of a polyline collection, in iteration order. -/
def polylineSegments (polys : List (List (ℚ × ℚ))) : List ((ℚ × ℚ) × (ℚ × ℚ)) :=
  polys.foldr (fun poly acc => segsOfPoly poly ++ acc) []

/-- The per-pair adjacency test of `_build_adjacency_graph`: distinct
ids, both centers cached, center distance below the threshold
(`hex_side*sqrt(3)*1.5`, squared here), and no ban segment strictly
crossing the factor-space segment between the tiles. -/
def adjacentB (centers : Int → Option (ℚ × ℚ)) (threshSq : ℚ)
    (banSegs : List ((ℚ × ℚ) × (ℚ × ℚ))) (p1 p2 : Province) : Bool :=
  (p1.province_id != p2.province_id) &&
  (match centers p1.province_id, centers p2.province_id with
   | some c1, some c2 => decide (distSq c1 c2 < threshSq)
   | _, _ => false) &&
  !(banSegs.any (fun cd =>
      segmentsIntersect (p1.x_factor, p1.y_factor) (p2.x_factor, p2.y_factor)
        cd.1 cd.2))

/-- The river test on a surviving pair. -/
def riverCrossB (riverSegs : List ((ℚ × ℚ) × (ℚ × ℚ))) (p1 p2 : Province) : Bool :=
  riverSegs.any (fun cd =>
    segmentsIntersect (p1.x_factor, p1.y_factor) (p2.x_factor, p2.y_factor)
      cd.1 cd.2)

/-- One tile's adjacency list (inner loop of `_build_adjacency_graph`). -/
def adjacencyRow (provinces : List Province) (centers : Int → Option (ℚ × ℚ))
    (hex_side : ℚ) (banPolys : List (List (ℚ × ℚ))) (p1 : Province) : List Int :=
  (provinces.filter
      (adjacentB centers ((hex_side^2 * 3) * (9/4)) (polylineSegments banPolys) p1)).map
    Province.province_id

/-- `_build_adjacency_graph`: the `_adjacency` rows (in province order)
and the directed `_river_crossing_edges` key set. -/
def buildAdjacencyGraph (provinces : List Province) (centers : Int → Option (ℚ × ℚ))
    (hex_side : ℚ) (riverPolys banPolys : List (List (ℚ × ℚ))) :
    List (Int × List Int) × List (Int × Int) :=
  let threshSq := (hex_side^2 * 3) * (9/4)
  let banSegs := polylineSegments banPolys
  let riverSegs := polylineSegments riverPolys
  (provinces.map (fun p1 => (p1.province_id, adjacencyRow provinces centers hex_side banPolys p1)),
   provinces.foldl (fun acc p1 =>
     acc ++ ((provinces.filter (fun p2 =>
         adjacentB centers threshSq banSegs p1 p2 && riverCrossB riverSegs p1 p2)).map
       (fun p2 => (p1.province_id, p2.province_id)))) [])

lemma eq_of_mem_nodup_ids :
    ∀ {l : List Province}, (l.map Province.province_id).Nodup →
      ∀ {p q : Province}, p ∈ l → q ∈ l → p.province_id = q.province_id → p = q := by
  intro l
  induction l with
  | nil => intro _ p q hp; cases hp
  | cons r rest ih =>
    intro hnd p q hp hq hid
    have hnd0 : (r.province_id :: rest.map Province.province_id).Nodup := by
      simpa using hnd
    have hhead : r.province_id ∉ rest.map Province.province_id :=
      (List.nodup_cons.mp hnd0).1
    have htail : (rest.map Province.province_id).Nodup :=
      (List.nodup_cons.mp hnd0).2
    rcases List.mem_cons.mp hp with hp | hp <;> rcases List.mem_cons.mp hq with hq | hq
    · rw [hp, hq]
    · exfalso
      apply hhead
      rw [hp] at hid
      exact hid ▸ List.mem_map.mpr ⟨q, hq, rfl⟩
    · exfalso
      apply hhead
      rw [hq] at hid
      exact hid ▸ List.mem_map.mpr ⟨p, hp, rfl⟩
    · exact ih htail hp hq hid

lemma adjacentB_iff {centers : Int → Option (ℚ × ℚ)} {threshSq : ℚ}
    {banSegs : List ((ℚ × ℚ) × (ℚ × ℚ))} {p1 p2 : Province} {c1 c2 : ℚ × ℚ}
    (hne : p1.province_id ≠ p2.province_id)
    (hc1 : centers p1.province_id = some c1)
    (hc2 : centers p2.province_id = some c2) :
    adjacentB centers threshSq banSegs p1 p2 = true ↔
      distSq c1 c2 < threshSq ∧
      ∀ cd ∈ banSegs,
        segmentsIntersect (p1.x_factor, p1.y_factor) (p2.x_factor, p2.y_factor)
          cd.1 cd.2 = false := by
  simp only [adjacentB, hc1, hc2, Bool.and_eq_true, bne_iff_ne, ne_eq,
    Bool.not_eq_true', List.any_eq_false, decide_eq_true_eq]
  constructor
  · rintro ⟨⟨_, hdist⟩, hban⟩
    exact ⟨hdist, fun cd hcd => Bool.eq_false_iff.mpr (hban cd hcd)⟩
  · rintro ⟨hdist, hban⟩
    exact ⟨⟨hne, hdist⟩, fun cd hcd => Bool.eq_false_iff.mp (hban cd hcd)⟩

/-- C4 (amended): two distinct tiles with cached centers are geometric
neighbor candidates iff their center distance is strictly below
`1.5 × (sqrt(3) × hexSide)` (stated on squares: `distSq < hexSide²·3·(3/2)²`)
— the code's slack factor is 1.5, not the claimed 1.1 — and candidate
pairs whose factor-space segment strictly crosses a ban segment are
dropped; the surviving ids form the adjacency row of the built graph. -/
theorem adjacency_candidates_amended
    (provinces : List Province) (centers : Int → Option (ℚ × ℚ)) (hex_side : ℚ)
    (riverPolys banPolys : List (List (ℚ × ℚ))) (p1 p2 : Province) (c1 c2 : ℚ × ℚ)
    (hnd : (provinces.map Province.province_id).Nodup)
    (hp1 : p1 ∈ provinces) (hp2 : p2 ∈ provinces)
    (hne : p1.province_id ≠ p2.province_id)
    (hc1 : centers p1.province_id = some c1)
    (hc2 : centers p2.province_id = some c2) :
    (p2.province_id ∈ adjacencyRow provinces centers hex_side banPolys p1 ↔
      distSq c1 c2 < (hex_side^2 * 3) * (9/4) ∧
      ∀ cd ∈ polylineSegments banPolys,
        segmentsIntersect (p1.x_factor, p1.y_factor) (p2.x_factor, p2.y_factor)
          cd.1 cd.2 = false) ∧
    (p1.province_id, adjacencyRow provinces centers hex_side banPolys p1) ∈
      (buildAdjacencyGraph provinces centers hex_side riverPolys banPolys).1 := by
  constructor
  · simp only [adjacencyRow, List.mem_map, List.mem_filter]
    constructor
    · rintro ⟨q, ⟨hqmem, hqadj⟩, hqid⟩
      have hq : q = p2 := eq_of_mem_nodup_ids hnd hqmem hp2 hqid
      subst hq
      exact (adjacentB_iff hne hc1 hc2).mp hqadj
    · intro h
      exact ⟨p2, ⟨hp2, (adjacentB_iff hne hc1 hc2).mpr h⟩, rfl⟩
  · simp only [buildAdjacencyGraph]
    exact List.mem_map.mpr ⟨p1, hp1, rfl⟩

def c4p1 : Province := ⟨1, "A", "", "plain", 0, 0, 0, 0, []⟩

def c4p2 : Province := ⟨2, "B", "", "plain", 0, 0, 2, 0, []⟩

def c4provs : List Province := [c4p1, c4p2]

def c4centers : Int → Option (ℚ × ℚ) := fun pid =>
  if pid = 1 then some (0, 0) else if pid = 2 then some (2, 0) else none

/-- C4 counterexample: with hexSide 1, two tiles whose centers are
distance 2 apart are adjacent in the built graph (2 < 1.5·√3 ≈ 2.598),
yet the claimed bound 1.1·√3 ≈ 1.905 excludes them: as stated, with the
1.1 factor, the claim is false on the code. -/
theorem adjacency_threshold_claim_counterexample :
    (2 : Int) ∈ adjacencyRow c4provs c4centers 1 [] c4p1 ∧
    ¬ distSq (0, 0) (2, 0) < ((1 : ℚ)^2 * 3) * (121/100) := by
  have h11 : adjacentB c4centers (((1 : ℚ)^2 * 3) * (9/4)) (polylineSegments [])
      c4p1 c4p1 = false := by
    simp [adjacentB, c4p1]
  have h12 : adjacentB c4centers (((1 : ℚ)^2 * 3) * (9/4)) (polylineSegments [])
      c4p1 c4p2 = true := by
    simp only [adjacentB, c4p1, c4p2, c4centers, polylineSegments, List.foldr_nil,
      List.any_nil, Bool.not_false, Bool.and_true]
    norm_num [distSq]
  constructor
  · simp only [adjacencyRow, c4provs, List.filter_cons, h11, h12, List.filter_nil,
      List.map_cons, List.map_nil]
    simp [c4p2]
  · norm_num [distSq]

theorem adjacency_candidates_amended_witness :
    ((2 : Int) ∈ adjacencyRow c4provs c4centers 1 [] c4p1 ↔
      distSq (0, 0) (2, 0) < ((1 : ℚ)^2 * 3) * (9/4) ∧
      ∀ cd ∈ polylineSegments [],
        segmentsIntersect (c4p1.x_factor, c4p1.y_factor) (c4p2.x_factor, c4p2.y_factor)
          cd.1 cd.2 = false) ∧
    (c4p1.province_id, adjacencyRow c4provs c4centers 1 [] c4p1) ∈
      (buildAdjacencyGraph c4provs c4centers 1 [] []).1 := by
  have h := adjacency_candidates_amended c4provs c4centers 1 [] [] c4p1 c4p2
    (0, 0) (2, 0) (by decide) (by decide) (by decide) (by decide) rfl rfl
  exact h

/-! ### Path cost engine (src/map/map_manager.py `find_path_cost`).

`heapq` is modelled as a bag of `(cost, id)` pairs: `heappop` returns
the lexicographically least pair, `heappush` adds a pair; only the
minimum is observable.  The unbounded `while queue:` loop runs on fuel;
`pathFuel` is proven sufficient below, so the fuel never changes the
result. -/

/-- The map data consulted by `find_path_cost`: the loaded provinces
(for `get_by_id` and terrain), the `_adjacency` rows and the
`_river_crossing_edges` flags (`.get((a,b), False)`). -/
structure MapGraph where
  provinces : List Province
  adjacency : Int → List Int
  riverEdge : Int → Int → Bool

def MapGraph.get_by_id (g : MapGraph) (pid : Int) : Option Province :=
  g.provinces.find? (fun p => p.province_id == pid)

/-- The province ids, in load order. -/
def MapGraph.ids (g : MapGraph) : List Int :=
  g.provinces.map Province.province_id

/-- Incremental cost of the step `curr → next`: base 1, +1 when the
entered tile is rough, +1 when the edge crosses a river. -/
def stepCost (g : MapGraph) (curr next : Int) (nextProv : Province) : Nat :=
  1 + (if isRoughTerrain nextProv.terrain then 1 else 0) +
    (if g.riverEdge curr next then 1 else 0)

/-- Lexicographic < on `(cost, id)` pairs, as `heapq` compares tuples. -/
def pairLtB (a b : Nat × Int) : Bool :=
  decide (a.1 < b.1) || (decide (a.1 = b.1) && decide (a.2 < b.2))

def popMinAux (best : Nat × Int) : List (Nat × Int) → Nat × Int
  | [] => best
  | y :: ys => popMinAux (if pairLtB y best then y else best) ys

/-- `heapq.heappop`: remove and return the least `(cost, id)` pair. -/
def popMin : List (Nat × Int) → Option ((Nat × Int) × List (Nat × Int))
  | [] => none
  | x :: xs =>
    let m := popMinAux x xs
    some (m, (x :: xs).erase m)

/-- Pointwise update of the `min_costs` dict. -/
def updateD (d : Int → Option Nat) (k : Int) (v : Nat) : Int → Option Nat :=
  fun x => if x = k then some v else d x

/-- One relaxation (`for next_id in neighbors` body): skip unknown
provinces, push and record when the candidate total strictly improves
(`min_costs.get(next_id, float('inf'))`). -/
def relaxNeighbor (g : MapGraph) (c : Nat) (u : Int)
    (acc : List (Nat × Int) × (Int → Option Nat)) (next : Int) :
    List (Nat × Int) × (Int → Option Nat) :=
  match g.get_by_id next with
  | none => acc
  | some nextProv =>
    let newTotal := c + stepCost g u next nextProv
    match acc.2 next with
    | some m =>
      if newTotal < m then ((newTotal, next) :: acc.1, updateD acc.2 next newTotal)
      else acc
    | none => ((newTotal, next) :: acc.1, updateD acc.2 next newTotal)

/-- The `while queue:` loop of `find_path_cost`, on fuel: pop the least
entry, drop it when stale, return its cost at the target, otherwise
relax all neighbors; an exhausted queue yields the sentinel 9999. -/
def dijkstraLoop (g : MapGraph) (target : Int) :
    Nat → List (Nat × Int) → (Int → Option Nat) → Option Nat
  | 0, _, _ => none
  | fuel+1, queue, d =>
    match popMin queue with
    | none => some 9999
    | some ((c, u), rest) =>
      if (match d u with | some du => decide (du < c) | none => false) then
        dijkstraLoop g target fuel rest d
      else if u = target then some c
      else
        let qd := (g.adjacency u).foldl (relaxNeighbor g c u) (rest, d)
        dijkstraLoop g target fuel qd.1 qd.2

/-- Fuel that always suffices (proved in `dijkstraLoop_total`): one more
than the largest possible loop potential. -/
def pathFuel (g : MapGraph) (init : Nat) : Nat :=
  2 + g.ids.length * ((init + 3 * g.ids.length) + 2)

/-- `find_path_cost`: 0 for `start == target`, 9999 for an unknown
start or an unreachable target, otherwise the Dijkstra result on the
initial queue `[(initial_cost, start_id)]`.  The `none` fallback is
dead code: `pathFuel` is sufficient fuel. -/
def find_path_cost (g : MapGraph) (start_id target_id : Int) : Int :=
  if start_id = target_id then 0
  else
    match g.get_by_id start_id with
    | none => 9999
    | some start_prov =>
      let initial_cost : Nat := if isRoughTerrain start_prov.terrain then 1 else 0
      match dijkstraLoop g target_id (pathFuel g initial_cost)
          [(initial_cost, start_id)]
          (fun v => if v = start_id then some initial_cost else none) with
      | some r => (r : Int)
      | none => 9999

/-- Specification-side walk costs: `Reach g s init v n` holds when some
walk from `s` to `v` over the adjacency graph accumulates exactly cost
`n`, starting from the initial cost `init` (the start-tile rough
penalty) and adding `stepCost` per edge — i.e. edges + rough tiles
entered + rivers crossed + start penalty. -/
inductive Reach (g : MapGraph) (s : Int) (init : Nat) : Int → Nat → Prop
  | base : Reach g s init s init
  | step {u n next : _} (h : Reach g s init u n) (hadj : next ∈ g.adjacency u)
      (p : Province) (hp : g.get_by_id next = some p) :
      Reach g s init next (n + stepCost g u next p)

lemma pairLtB_fst_le {a b : Nat × Int} (h : pairLtB a b = true) : a.1 ≤ b.1 := by
  simp only [pairLtB, Bool.or_eq_true, Bool.and_eq_true, decide_eq_true_eq] at h
  rcases h with h | ⟨h, _⟩
  · exact le_of_lt h
  · exact le_of_eq h

lemma pairLtB_false_fst_le {a b : Nat × Int} (h : pairLtB a b = false) : b.1 ≤ a.1 := by
  simp only [pairLtB, Bool.or_eq_false_iff, Bool.and_eq_false_iff,
    decide_eq_false_iff_not, not_lt] at h
  exact h.1

lemma popMinAux_spec :
    ∀ (l : List (Nat × Int)) (best : Nat × Int),
      (popMinAux best l = best ∨ popMinAux best l ∈ l) ∧
      (popMinAux best l).1 ≤ best.1 ∧ ∀ y ∈ l, (popMinAux best l).1 ≤ y.1 := by
  intro l
  induction l with
  | nil => intro best; exact ⟨Or.inl rfl, le_refl _, fun y hy => absurd hy (List.not_mem_nil _)⟩
  | cons a as ih =>
    intro best
    simp only [popMinAux]
    by_cases hlt : pairLtB a best = true
    · rw [if_pos hlt]
      obtain ⟨hmem, hle, hall⟩ := ih a
      refine ⟨?_, ?_, ?_⟩
      · rcases hmem with h | h
        · exact Or.inr (by rw [h]; exact List.mem_cons_self _ _)
        · exact Or.inr (List.mem_cons_of_mem _ h)
      · exact le_trans hle (pairLtB_fst_le hlt)
      · intro y hy
        rcases List.mem_cons.mp hy with hy | hy
        · rw [hy]; exact hle
        · exact hall y hy
    · rw [if_neg hlt]
      obtain ⟨hmem, hle, hall⟩ := ih best
      refine ⟨?_, hle, ?_⟩
      · rcases hmem with h | h
        · exact Or.inl h
        · exact Or.inr (List.mem_cons_of_mem _ h)
      · intro y hy
        rcases List.mem_cons.mp hy with hy | hy
        · rw [hy]
          exact le_trans hle (pairLtB_false_fst_le (Bool.eq_false_iff.mpr hlt))
        · exact hall y hy

lemma popMin_spec {q : List (Nat × Int)} {m : Nat × Int} {rest : List (Nat × Int)}
    (h : popMin q = some (m, rest)) :
    m ∈ q ∧ (∀ y ∈ q, m.1 ≤ y.1) ∧ rest = q.erase m := by
  cases q with
  | nil => cases h
  | cons x xs =>
    simp only [popMin, Option.some.injEq, Prod.mk.injEq] at h
    obtain ⟨hm, hrest⟩ := h
    obtain ⟨hmem, hle, hall⟩ := popMinAux_spec xs x
    subst hm
    refine ⟨?_, ?_, hrest.symm⟩
    · rcases hmem with h | h
      · rw [h]; exact List.mem_cons_self _ _
      · exact List.mem_cons_of_mem _ h
    · intro y hy
      rcases List.mem_cons.mp hy with hy | hy
      · rw [hy]; exact hle
      · exact hall y hy

lemma countP_mono_ptwise {l : List Int} {d d' : Int → Option Nat}
    (h : ∀ v, (d v).isSome = true → (d' v).isSome = true) :
    l.countP (fun w => (d w).isSome) ≤ l.countP (fun w => (d' w).isSome) := by
  induction l with
  | nil => simp
  | cons a as ih =>
    simp only [List.countP_cons]
    have hito : (if (false : Bool) = true then (1:Nat) else 0) = 0 := rfl
    have hitt : (if (true : Bool) = true then (1:Nat) else 0) = 1 := rfl
    rcases ha : (d a).isSome with _ | _
    · rw [hito]
      have hb : (if ((d' a).isSome) = true then (1:Nat) else 0) ≤ 1 := by
        split_ifs <;> omega
      omega
    · rw [h a ha]
      simp only [hitt]
      omega

lemma countP_flip {l : List Int} {d d' : Int → Option Nat}
    (hmono : ∀ v, (d v).isSome = true → (d' v).isSome = true)
    {x : Int} (hx : x ∈ l) (hxf : (d x).isSome = false)
    (hxt : (d' x).isSome = true) :
    l.countP (fun w => (d w).isSome) + 1 ≤ l.countP (fun w => (d' w).isSome) := by
  induction l with
  | nil => cases hx
  | cons a as ih =>
    simp only [List.countP_cons]
    have hito : (if (false : Bool) = true then (1:Nat) else 0) = 0 := rfl
    have hitt : (if (true : Bool) = true then (1:Nat) else 0) = 1 := rfl
    rcases List.mem_cons.mp hx with hax | hax
    · subst hax
      rw [hxf, hxt, hito, hitt]
      have := countP_mono_ptwise (l := as) hmono
      omega
    · have hih := ih hax
      rcases ha : (d a).isSome with _ | _
      · rw [hito]
        omega
      · rw [hmono a ha]
        simp only [hitt]
        omega

lemma countP_le_sub_one {l : List Int} {d : Int → Option Nat} {x : Int}
    (hx : x ∈ l) (hxf : (d x).isSome = false) :
    l.countP (fun w => (d w).isSome) + 1 ≤ l.length := by
  induction l with
  | nil => cases hx
  | cons a as ih =>
    simp only [List.countP_cons, List.length_cons]
    have hito : (if (false : Bool) = true then (1:Nat) else 0) = 0 := rfl
    rcases List.mem_cons.mp hx with hax | hax
    · subst hax
      rw [hxf, hito]
      have := List.countP_le_length (p := fun w => (d w).isSome) (l := as)
      omega
    · have := ih hax
      have hone : (if ((d a).isSome) = true then (1:Nat) else 0) ≤ 1 := by
        split_ifs <;> omega
      omega

lemma map_sum_le_ptwise {l : List Int} {f f' : Int → Nat}
    (h : ∀ v, f' v ≤ f v) : (l.map f').sum ≤ (l.map f).sum := by
  induction l with
  | nil => simp
  | cons a as ih =>
    simp only [List.map_cons, List.sum_cons]
    exact Nat.add_le_add (h a) ih

lemma map_sum_lt_of_point {l : List Int} {f f' : Int → Nat}
    (hmono : ∀ v, f' v ≤ f v) {x : Int} (hx : x ∈ l) (hlt : f' x < f x) :
    (l.map f').sum < (l.map f).sum := by
  induction l with
  | nil => cases hx
  | cons a as ih =>
    simp only [List.map_cons, List.sum_cons]
    rcases List.mem_cons.mp hx with hax | hax
    · subst hax
      have := map_sum_le_ptwise (l := as) hmono
      omega
    · have := ih hax
      have := hmono a
      omega

lemma map_sum_le_bound {l : List Int} {f : Int → Nat} {K : Nat}
    (h : ∀ v ∈ l, f v ≤ K) : (l.map f).sum ≤ l.length * K := by
  induction l with
  | nil => simp
  | cons a as ih =>
    simp only [List.map_cons, List.sum_cons, List.length_cons]
    have h1 := h a (List.mem_cons_self _ _)
    have h2 := ih (fun v hv => h v (List.mem_cons_of_mem _ hv))
    have : (as.length + 1) * K = as.length * K + K := by ring
    omega

/-- The loop invariant of `dijkstraLoop` over `(queue, min_costs)`:
(1) every queue entry dominates the recorded cost of its node;
(2) every recorded cost is realised by some walk;
(3) the start keeps a record ≤ its initial cost;
(4) every recorded node is still pending in the queue or fully relaxed;
(5) the target is unrecorded or pending;
(6) recorded keys are province ids;
(7) recorded costs are bounded by `init + 3·(number of recorded keys)`. -/
def Inv (g : MapGraph) (s : Int) (init : Nat) (t : Int)
    (q : List (Nat × Int)) (d : Int → Option Nat) : Prop :=
  (∀ cv ∈ q, ∃ c', d cv.2 = some c' ∧ c' ≤ cv.1) ∧
  (∀ v c, d v = some c → Reach g s init v c) ∧
  (∃ c0, d s = some c0 ∧ c0 ≤ init) ∧
  (∀ v c, d v = some c → ((c, v) ∈ q ∨
     ∀ next ∈ g.adjacency v, ∀ p, g.get_by_id next = some p →
       ∃ cn, d next = some cn ∧ cn ≤ c + stepCost g v next p)) ∧
  (d t = none ∨ ∃ c, d t = some c ∧ (c, t) ∈ q) ∧
  (∀ v, (d v).isSome = true → v ∈ g.ids) ∧
  (∀ v c, d v = some c → c ≤ init + 3 * (g.ids.countP (fun w => (d w).isSome)))

lemma Inv_stale_pop {g : MapGraph} {s : Int} {init : Nat} {t : Int}
    {q rest : List (Nat × Int)} {d : Int → Option Nat} {c : Nat} {u : Int}
    (hinv : Inv g s init t q d)
    (hpop : popMin q = some ((c, u), rest))
    {du : Nat} (hdu : d u = some du) (hstale : du < c) :
    Inv g s init t rest d := by
  obtain ⟨h1, h2, h3, h4, h5, h6, h7⟩ := hinv
  obtain ⟨hmem, hmin, hrest⟩ := popMin_spec hpop
  subst hrest
  refine ⟨?_, h2, h3, ?_, ?_, h6, h7⟩
  · intro cv hcv
    exact h1 cv (List.mem_of_mem_erase hcv)
  · intro v cv hv
    rcases h4 v cv hv with hq | hrel
    · left
      refine (List.mem_erase_of_ne ?_).mpr hq
      intro hcon
      rw [Prod.mk.injEq] at hcon
      obtain ⟨hcc, hvu⟩ := hcon
      subst hvu
      rw [hv] at hdu
      rw [Option.some.injEq] at hdu
      omega
    · right; exact hrel
  · rcases h5 with h5 | ⟨ct, hct, hctq⟩
    · left; exact h5
    · right
      refine ⟨ct, hct, (List.mem_erase_of_ne ?_).mpr hctq⟩
      intro hcon
      rw [Prod.mk.injEq] at hcon
      obtain ⟨hcc, htu⟩ := hcon
      subst htu
      rw [hct] at hdu
      rw [Option.some.injEq] at hdu
      omega

/-- Walk induction: at a pop, either the popped cost already bounds the
walk, or the walk's endpoint has a recorded cost below the walk cost. -/
lemma pop_min_le_reach {g : MapGraph} {s : Int} {init : Nat} {t : Int}
    {q rest : List (Nat × Int)} {d : Int → Option Nat} {c : Nat} {u : Int}
    (hinv : Inv g s init t q d)
    (hpop : popMin q = some ((c, u), rest)) :
    ∀ v m, Reach g s init v m → c ≤ m ∨ ∃ cv, d v = some cv ∧ cv ≤ m := by
  obtain ⟨h1, h2, h3, h4, h5, h6, h7⟩ := hinv
  obtain ⟨hmem, hmin, hrest⟩ := popMin_spec hpop
  obtain ⟨c0, hc0, hc0le⟩ := h3
  intro v m hreach
  induction hreach with
  | base => exact Or.inr ⟨c0, hc0, hc0le⟩
  | step h hadj p hp ih =>
    rcases ih with hc | ⟨cv, hcv, hcvle⟩
    · left; omega
    · rcases h4 _ cv hcv with hq | hrel
      · left
        have := hmin (cv, _) hq
        simp only at this
        omega
      · obtain ⟨cn, hcn, hcnle⟩ := hrel _ hadj p hp
        right
        exact ⟨cn, hcn, by omega⟩

/-- A non-stale popped entry carries exactly the recorded cost. -/
lemma pop_nonstale_eq {q rest : List (Nat × Int)} {d : Int → Option Nat}
    {c : Nat} {u : Int}
    (h1 : ∀ cv ∈ q, ∃ c', d cv.2 = some c' ∧ c' ≤ cv.1)
    (hpop : popMin q = some ((c, u), rest))
    (hns : (match d u with | some du => decide (du < c) | none => false) = false) :
    d u = some c := by
  obtain ⟨hmem, hmin, hrest⟩ := popMin_spec hpop
  obtain ⟨c', hc', hle⟩ := h1 (c, u) hmem
  simp only at hc'
  rw [hc'] at hns ⊢
  simp only [decide_eq_false_iff_not, not_lt] at hns
  rw [Option.some.injEq]
  omega

/-- With an empty queue the recorded map is fully relaxed: an
unrecorded target is unreachable. -/
lemma empty_queue_unreachable {g : MapGraph} {s : Int} {init : Nat} {t : Int}
    {d : Int → Option Nat}
    (hinv : Inv g s init t ([] : List (Nat × Int)) d) :
    ∀ m, ¬ Reach g s init t m := by
  obtain ⟨h1, h2, h3, h4, h5, h6, h7⟩ := hinv
  obtain ⟨c0, hc0, hc0le⟩ := h3
  have hall : ∀ v m, Reach g s init v m → ∃ cv, d v = some cv ∧ cv ≤ m := by
    intro v m hreach
    induction hreach with
    | base => exact ⟨c0, hc0, hc0le⟩
    | step h hadj p hp ih =>
      obtain ⟨cv, hcv, hle⟩ := ih
      rcases h4 _ cv hcv with hq | hrel
      · cases hq
      · obtain ⟨cn, hcn, hcnle⟩ := hrel _ hadj p hp
        exact ⟨cn, hcn, by omega⟩
  intro m hreach
  obtain ⟨cv, hcv, _⟩ := hall t m hreach
  rcases h5 with h5 | ⟨ct, hct, hctq⟩
  · rw [h5] at hcv; cases hcv
  · cases hctq

lemma stepCost_le_three (g : MapGraph) (u next : Int) (p : Province) :
    stepCost g u next p ≤ 3 := by
  unfold stepCost
  split_ifs <;> omega

lemma get_by_id_mem_ids {g : MapGraph} {x : Int} {p : Province}
    (h : g.get_by_id x = some p) : x ∈ g.ids := by
  have hmem : p ∈ g.provinces := List.mem_of_find?_eq_some h
  have hid : p.province_id = x := by
    have := List.find?_some h
    simpa using this
  exact hid ▸ List.mem_map.mpr ⟨p, hmem, rfl⟩

/-- Potential of a loop state: queue length plus the summed ranks of the
recorded costs (unrecorded nodes rank highest). -/
def phiOf (B : Nat) : Option Nat → Nat
  | none => B + 2
  | some cv => cv + 1

def Phi (g : MapGraph) (B : Nat) (q : List (Nat × Int)) (d : Int → Option Nat) : Nat :=
  q.length + (g.ids.map (fun v => phiOf B (d v))).sum

/-- The invariant maintained while relaxing the neighbors of the popped
node `u` (popped non-stale with cost `c`): the loop invariant with the
pending-or-relaxed condition (4) restricted to nodes other than `u`,
plus `u`'s record and the already-processed neighbors of `u`
(`l` is the still-unprocessed suffix). -/
def RelaxInv (g : MapGraph) (s : Int) (init : Nat) (t u : Int) (c : Nat)
    (l : List Int) (q : List (Nat × Int)) (d : Int → Option Nat) : Prop :=
  (∀ cv ∈ q, ∃ c', d cv.2 = some c' ∧ c' ≤ cv.1) ∧
  (∀ v cv, d v = some cv → Reach g s init v cv) ∧
  (∃ c0, d s = some c0 ∧ c0 ≤ init) ∧
  (∀ v cv, d v = some cv → v ≠ u → ((cv, v) ∈ q ∨
     ∀ next ∈ g.adjacency v, ∀ p, g.get_by_id next = some p →
       ∃ cn, d next = some cn ∧ cn ≤ cv + stepCost g v next p)) ∧
  (d t = none ∨ ∃ ct, d t = some ct ∧ (ct, t) ∈ q) ∧
  (∀ v, (d v).isSome = true → v ∈ g.ids) ∧
  (∀ v cv, d v = some cv →
     cv ≤ init + 3 * (g.ids.countP (fun w => (d w).isSome))) ∧
  (d u = some c) ∧
  (∀ next ∈ g.adjacency u, next ∉ l → ∀ p, g.get_by_id next = some p →
     ∃ cn, d next = some cn ∧ cn ≤ c + stepCost g u next p)

lemma relaxNeighbor_none {g : MapGraph} {c : Nat} {u : Int}
    {acc : List (Nat × Int) × (Int → Option Nat)} {next : Int}
    (hp : g.get_by_id next = none) :
    relaxNeighbor g c u acc next = acc := by
  unfold relaxNeighbor
  rw [hp]

lemma relaxNeighbor_keep {g : MapGraph} {c : Nat} {u : Int}
    {acc : List (Nat × Int) × (Int → Option Nat)} {next : Int}
    {p : Province} {m : Nat}
    (hp : g.get_by_id next = some p) (hm : acc.2 next = some m)
    (hge : ¬ c + stepCost g u next p < m) :
    relaxNeighbor g c u acc next = acc := by
  unfold relaxNeighbor
  rw [hp]
  dsimp only
  rw [hm]
  simp [hge]

lemma relaxNeighbor_push {g : MapGraph} {c : Nat} {u : Int}
    {acc : List (Nat × Int) × (Int → Option Nat)} {next : Int}
    {p : Province}
    (hp : g.get_by_id next = some p)
    (himpr : ∀ m, acc.2 next = some m → c + stepCost g u next p < m) :
    relaxNeighbor g c u acc next =
      ((c + stepCost g u next p, next) :: acc.1,
       updateD acc.2 next (c + stepCost g u next p)) := by
  unfold relaxNeighbor
  rw [hp]
  dsimp only
  cases hm : acc.2 next with
  | none => rfl
  | some m => simp [himpr m hm]

lemma phiOf_none (B : Nat) : phiOf B none = B + 2 := rfl

lemma phiOf_some (B : Nat) (cv : Nat) : phiOf B (some cv) = cv + 1 := rfl

lemma relaxNeighbor_step {g : MapGraph} {s : Int} {init : Nat} {t u : Int} {c : Nat}
    {next : Int} {l : List Int} {acc : List (Nat × Int) × (Int → Option Nat)}
    (hirr : ∀ v, v ∉ g.adjacency v)
    (hreach : Reach g s init u c)
    (hadj : next ∈ g.adjacency u)
    (hinv : RelaxInv g s init t u c (next :: l) acc.1 acc.2) :
    RelaxInv g s init t u c l
        (relaxNeighbor g c u acc next).1 (relaxNeighbor g c u acc next).2 ∧
    Phi g (init + 3 * g.ids.length) (relaxNeighbor g c u acc next).1
        (relaxNeighbor g c u acc next).2 ≤
      Phi g (init + 3 * g.ids.length) acc.1 acc.2 := by
  obtain ⟨h1, h2, h3, h4, h5, h6, h7, h8, h9⟩ := hinv
  cases hp : g.get_by_id next with
  | none =>
    rw [relaxNeighbor_none hp]
    refine ⟨⟨h1, h2, h3, h4, h5, h6, h7, h8, ?_⟩, le_refl _⟩
    intro n2 hn2 hn2l p2 hp2
    by_cases hne : n2 = next
    · rw [hne, hp] at hp2; cases hp2
    · exact h9 n2 hn2 (fun hmem => (List.mem_cons.mp hmem).elim hne hn2l) p2 hp2
  | some p =>
    by_cases hkeep : ∃ m, acc.2 next = some m ∧ ¬ c + stepCost g u next p < m
    · obtain ⟨m, hm, hge⟩ := hkeep
      rw [relaxNeighbor_keep hp hm hge]
      refine ⟨⟨h1, h2, h3, h4, h5, h6, h7, h8, ?_⟩, le_refl _⟩
      intro n2 hn2 hn2l p2 hp2
      by_cases hne : n2 = next
      · rw [hne] at hp2 ⊢
        rw [hp] at hp2
        have hpp : p2 = p := (Option.some.inj hp2).symm
        rw [hpp]
        exact ⟨m, hm, by omega⟩
      · exact h9 n2 hn2 (fun hmem => (List.mem_cons.mp hmem).elim hne hn2l) p2 hp2
    · push_neg at hkeep
      have himpr : ∀ m, acc.2 next = some m → c + stepCost g u next p < m :=
        fun m hm => hkeep m hm
      rw [relaxNeighbor_push hp himpr]
      dsimp only
      set nv := c + stepCost g u next p with hnvdef
      set d₂ := updateD acc.2 next nv with hd2def
      have hnu : next ≠ u := fun h => hirr u (h ▸ hadj)
      have hnext_ids : next ∈ g.ids := get_by_id_mem_ids hp
      have hd2next : d₂ next = some nv := by simp [hd2def, updateD]
      have hd2other : ∀ v, v ≠ next → d₂ v = acc.2 v := by
        intro v hv; simp [hd2def, updateD, hv]
      have hmono : ∀ v, (acc.2 v).isSome = true → (d₂ v).isSome = true := by
        intro v hv
        by_cases hvn : v = next
        · rw [hvn, hd2next]; rfl
        · rw [hd2other v hvn]; exact hv
      have hcount : g.ids.countP (fun w => (acc.2 w).isSome) ≤
          g.ids.countP (fun w => (d₂ w).isSome) := countP_mono_ptwise hmono
      have hnv_bound : nv ≤ init + 3 * (g.ids.countP (fun w => (d₂ w).isSome)) := by
        cases hm : acc.2 next with
        | some m =>
          have h7m := h7 next m hm
          have hlt := himpr m hm
          omega
        | none =>
          have h7u := h7 u c h8
          have hflip := countP_flip hmono hnext_ids
            (by rw [hm]; rfl) (by rw [hd2next]; rfl)
          have hst := stepCost_le_three g u next p
          omega
      refine ⟨⟨?_, ?_, ?_, ?_, ?_, ?_, ?_, ?_, ?_⟩, ?_⟩
      · intro cv hcv
        rcases List.mem_cons.mp hcv with hhd | htl
        · rw [hhd]
          exact ⟨nv, hd2next, le_refl _⟩
        · obtain ⟨c', hc', hle⟩ := h1 cv htl
          by_cases hvn : cv.2 = next
          · rw [hvn] at hc'
            have hlt := himpr c' hc'
            exact ⟨nv, by rw [hvn]; exact hd2next, by omega⟩
          · exact ⟨c', by rw [hd2other cv.2 hvn]; exact hc', hle⟩
      · intro v cv hcv
        by_cases hvn : v = next
        · rw [hvn] at hcv ⊢
          rw [hd2next] at hcv
          cases hcv
          exact Reach.step hreach hadj p hp
        · rw [hd2other v hvn] at hcv
          exact h2 v cv hcv
      · obtain ⟨c0, hc0, hc0le⟩ := h3
        by_cases hsn : s = next
        · have hlt := himpr c0 (by rw [← hsn]; exact hc0)
          exact ⟨nv, by rw [hsn]; exact hd2next, by omega⟩
        · exact ⟨c0, by rw [hd2other s hsn]; exact hc0, hc0le⟩
      · intro v cv hcv hvne
        by_cases hvn : v = next
        · rw [hvn] at hcv ⊢
          rw [hd2next] at hcv
          cases hcv
          left
          exact List.mem_cons_self _ _
        · rw [hd2other v hvn] at hcv
          rcases h4 v cv hcv hvne with hq | hrel
          · left; exact List.mem_cons_of_mem _ hq
          · right
            intro n2 hn2adj p2 hp2
            obtain ⟨cn, hcn, hcnle⟩ := hrel n2 hn2adj p2 hp2
            by_cases hn2n : n2 = next
            · rw [hn2n] at hcn hcnle ⊢
              have hlt := himpr cn hcn
              exact ⟨nv, hd2next, by omega⟩
            · exact ⟨cn, by rw [hd2other n2 hn2n]; exact hcn, hcnle⟩
      · by_cases htn : t = next
        · right
          refine ⟨nv, ?_, ?_⟩
          · rw [htn]; exact hd2next
          · rw [htn]; exact List.mem_cons_self _ _
        · rcases h5 with h5n | ⟨ct, hct, hctq⟩
          · left; rw [hd2other t htn]; exact h5n
          · right
            exact ⟨ct, by rw [hd2other t htn]; exact hct, List.mem_cons_of_mem _ hctq⟩
      · intro v hv
        by_cases hvn : v = next
        · rw [hvn]; exact hnext_ids
        · rw [hd2other v hvn] at hv
          exact h6 v hv
      · intro v cv hcv
        by_cases hvn : v = next
        · rw [hvn] at hcv
          rw [hd2next] at hcv
          cases hcv
          exact hnv_bound
        · rw [hd2other v hvn] at hcv
          have := h7 v cv hcv
          omega
      · rw [hd2other u (Ne.symm hnu)]; exact h8
      · intro n2 hn2adj hn2l p2 hp2
        by_cases hn2n : n2 = next
        · rw [hn2n] at hp2 ⊢
          rw [hp] at hp2
          have hpp : p2 = p := (Option.some.inj hp2).symm
          rw [hpp]
          exact ⟨nv, hd2next, le_of_eq hnvdef.symm⟩
        · obtain ⟨cn, hcn, hcnle⟩ := h9 n2 hn2adj
            (fun hmem => (List.mem_cons.mp hmem).elim hn2n hn2l) p2 hp2
          exact ⟨cn, by rw [hd2other n2 hn2n]; exact hcn, hcnle⟩
      · have hnvB : nv ≤ init + 3 * g.ids.length := by
          have hcl : g.ids.countP (fun w => (d₂ w).isSome) ≤ g.ids.length :=
            List.countP_le_length _
          omega
        have hmono_phi : ∀ v, phiOf (init + 3 * g.ids.length) (d₂ v) ≤
            phiOf (init + 3 * g.ids.length) (acc.2 v) := by
          intro v
          by_cases hvn : v = next
          · rw [hvn, hd2next]
            cases hm : acc.2 next with
            | some m =>
              have := himpr m hm
              simp only [phiOf_none, phiOf_some]
              omega
            | none =>
              simp only [phiOf_none, phiOf_some]
              omega
          · rw [hd2other v hvn]
        have hlt_next : phiOf (init + 3 * g.ids.length) (d₂ next) <
            phiOf (init + 3 * g.ids.length) (acc.2 next) := by
          rw [hd2next]
          cases hm : acc.2 next with
          | some m =>
            have := himpr m hm
            simp only [phiOf_none, phiOf_some]
            omega
          | none =>
            simp only [phiOf_none, phiOf_some]
            omega
        have hsum := map_sum_lt_of_point hmono_phi hnext_ids hlt_next
        unfold Phi
        simp only [List.length_cons]
        omega

lemma relax_fold {g : MapGraph} {s : Int} {init : Nat} {t u : Int} {c : Nat}
    (hirr : ∀ v, v ∉ g.adjacency v)
    (hreach : Reach g s init u c) :
    ∀ (l : List Int) (acc : List (Nat × Int) × (Int → Option Nat)),
      (∀ x ∈ l, x ∈ g.adjacency u) →
      RelaxInv g s init t u c l acc.1 acc.2 →
      RelaxInv g s init t u c []
          (l.foldl (relaxNeighbor g c u) acc).1
          (l.foldl (relaxNeighbor g c u) acc).2 ∧
      Phi g (init + 3 * g.ids.length) (l.foldl (relaxNeighbor g c u) acc).1
          (l.foldl (relaxNeighbor g c u) acc).2 ≤
        Phi g (init + 3 * g.ids.length) acc.1 acc.2 := by
  intro l
  induction l with
  | nil => intro acc _ hinv; exact ⟨hinv, le_refl _⟩
  | cons x xs ih =>
    intro acc hsub hinv
    have hadj : x ∈ g.adjacency u := hsub x (List.mem_cons_self _ _)
    obtain ⟨hinv2, hphi2⟩ := relaxNeighbor_step hirr hreach hadj hinv
    obtain ⟨hinv3, hphi3⟩ := ih (relaxNeighbor g c u acc x)
      (fun y hy => hsub y (List.mem_cons_of_mem _ hy)) hinv2
    rw [List.foldl_cons]
    exact ⟨hinv3, le_trans hphi3 hphi2⟩

lemma Inv_after_pop {g : MapGraph} {s : Int} {init : Nat} {t : Int}
    {q rest : List (Nat × Int)} {d : Int → Option Nat} {c : Nat} {u : Int}
    (hinv : Inv g s init t q d)
    (hpop : popMin q = some ((c, u), rest))
    (hdu : d u = some c) (hut : u ≠ t) :
    RelaxInv g s init t u c (g.adjacency u) rest d := by
  obtain ⟨h1, h2, h3, h4, h5, h6, h7⟩ := hinv
  obtain ⟨hmem, hmin, hrest⟩ := popMin_spec hpop
  subst hrest
  refine ⟨?_, h2, h3, ?_, ?_, h6, h7, hdu, ?_⟩
  · intro cv hcv
    exact h1 cv (List.mem_of_mem_erase hcv)
  · intro v cv hcv hvu
    rcases h4 v cv hcv with hq | hrel
    · left
      refine (List.mem_erase_of_ne ?_).mpr hq
      intro hcon
      rw [Prod.mk.injEq] at hcon
      exact hvu hcon.2
    · right; exact hrel
  · rcases h5 with h5n | ⟨ct, hct, hctq⟩
    · left; exact h5n
    · right
      refine ⟨ct, hct, (List.mem_erase_of_ne ?_).mpr hctq⟩
      intro hcon
      rw [Prod.mk.injEq] at hcon
      exact hut hcon.2.symm
  · intro next hadj hnot
    exact absurd hadj hnot

lemma Inv_restore {g : MapGraph} {s : Int} {init : Nat} {t u : Int} {c : Nat}
    {q : List (Nat × Int)} {d : Int → Option Nat}
    (hinv : RelaxInv g s init t u c [] q d) :
    Inv g s init t q d := by
  obtain ⟨h1, h2, h3, h4, h5, h6, h7, h8, h9⟩ := hinv
  refine ⟨h1, h2, h3, ?_, h5, h6, h7⟩
  intro v cv hcv
  by_cases hvu : v = u
  · right
    rw [hvu] at hcv ⊢
    rw [h8] at hcv
    have hcveq : cv = c := (Option.some.inj hcv).symm
    rw [hcveq]
    intro next hadj p hp
    exact h9 next hadj (List.not_mem_nil next) p hp
  · exact h4 v cv hcv hvu

lemma popMin_eq_none {q : List (Nat × Int)} (h : popMin q = none) : q = [] := by
  cases q with
  | nil => rfl
  | cons x xs =>
    unfold popMin at h
    cases h

lemma dijkstraLoop_succ (g : MapGraph) (target : Int) (fuel : Nat)
    (queue : List (Nat × Int)) (d : Int → Option Nat) :
    dijkstraLoop g target (fuel+1) queue d =
      match popMin queue with
      | none => some 9999
      | some ((c, u), rest) =>
        if (match d u with | some du => decide (du < c) | none => false) then
          dijkstraLoop g target fuel rest d
        else if u = target then some c
        else
          let qd := (g.adjacency u).foldl (relaxNeighbor g c u) (rest, d)
          dijkstraLoop g target fuel qd.1 qd.2 := by
  rfl

lemma dijkstraLoop_correct {g : MapGraph} {s : Int} {init : Nat} {t : Int}
    (hirr : ∀ v, v ∉ g.adjacency v) :
    ∀ (fuel : Nat) (q : List (Nat × Int)) (d : Int → Option Nat),
      Inv g s init t q d →
      ∀ r, dijkstraLoop g t fuel q d = some r →
        (Reach g s init t r ∧ ∀ n, Reach g s init t n → r ≤ n) ∨
        (r = 9999 ∧ ∀ n, ¬ Reach g s init t n) := by
  intro fuel
  induction fuel with
  | zero => intro q d _ r hr; cases hr
  | succ fuel ih =>
    intro q d hinv r hr
    rw [dijkstraLoop_succ] at hr
    cases hpop : popMin q with
    | none =>
      rw [hpop] at hr
      have hq : q = [] := popMin_eq_none hpop
      subst hq
      dsimp only at hr
      have hr9 : r = 9999 := (Option.some.inj hr).symm
      right
      exact ⟨hr9, fun n hn => empty_queue_unreachable hinv n hn⟩
    | some cur =>
      obtain ⟨⟨c, u⟩, rest⟩ := cur
      rw [hpop] at hr
      dsimp only at hr
      by_cases hst : (match d u with | some du => decide (du < c) | none => false) = true
      · rw [if_pos hst] at hr
        cases hdu2 : d u with
        | none =>
          rw [hdu2] at hst
          dsimp only at hst
          cases hst
        | some du =>
          rw [hdu2] at hst
          dsimp only at hst
          have hlt : du < c := of_decide_eq_true hst
          exact ih rest d (Inv_stale_pop hinv hpop hdu2 hlt) r hr
      · rw [if_neg hst] at hr
        have hstf : (match d u with | some du => decide (du < c) | none => false) = false := by
          revert hst
          cases (match d u with | some du => decide (du < c) | none => false) <;> simp
        have hdu : d u = some c := pop_nonstale_eq hinv.1 hpop hstf
        by_cases hut : u = t
        · rw [if_pos hut] at hr
          have hcr : c = r := Option.some.inj hr
          subst hcr
          left
          constructor
          · exact hinv.2.1 t c (hut ▸ hdu)
          · intro n hn
            rcases pop_min_le_reach hinv hpop t n hn with h | ⟨cv, hcv, hle⟩
            · exact h
            · rw [hut] at hdu
              rw [hdu] at hcv
              have : c = cv := Option.some.inj hcv
              rw [this]
              exact hle
        · rw [if_neg hut] at hr
          have hreach : Reach g s init u c := hinv.2.1 u c hdu
          have hri := Inv_after_pop hinv hpop hdu hut
          obtain ⟨hinv2, _⟩ := relax_fold hirr hreach (g.adjacency u) (rest, d)
            (fun x hx => hx) hri
          exact ih _ _ (Inv_restore hinv2) r hr

lemma dijkstraLoop_total {g : MapGraph} {s : Int} {init : Nat} {t : Int}
    (hirr : ∀ v, v ∉ g.adjacency v) :
    ∀ (fuel : Nat) (q : List (Nat × Int)) (d : Int → Option Nat),
      Inv g s init t q d →
      Phi g (init + 3 * g.ids.length) q d < fuel →
      ∃ r, dijkstraLoop g t fuel q d = some r := by
  intro fuel
  induction fuel with
  | zero => intro q d _ hphi; exact absurd hphi (Nat.not_lt_zero _)
  | succ fuel ih =>
    intro q d hinv hphi
    rw [dijkstraLoop_succ]
    cases hpop : popMin q with
    | none => exact ⟨9999, rfl⟩
    | some cur =>
      obtain ⟨⟨c, u⟩, rest⟩ := cur
      dsimp only
      obtain ⟨hmem, hmin, hrest⟩ := popMin_spec hpop
      have hlen : rest.length = q.length - 1 := by
        rw [hrest]
        exact List.length_erase_of_mem hmem
      have hqpos : 0 < q.length := List.length_pos.mpr (List.ne_nil_of_mem hmem)
      have hphi2 : Phi g (init + 3 * g.ids.length) rest d < fuel := by
        unfold Phi at hphi ⊢
        rw [hlen]
        omega
      by_cases hst : (match d u with | some du => decide (du < c) | none => false) = true
      · rw [if_pos hst]
        cases hdu2 : d u with
        | none =>
          rw [hdu2] at hst
          dsimp only at hst
          cases hst
        | some du =>
          rw [hdu2] at hst
          dsimp only at hst
          have hlt : du < c := of_decide_eq_true hst
          exact ih rest d (Inv_stale_pop hinv hpop hdu2 hlt) hphi2
      · rw [if_neg hst]
        by_cases hut : u = t
        · rw [if_pos hut]
          exact ⟨c, rfl⟩
        · rw [if_neg hut]
          have hstf : (match d u with | some du => decide (du < c) | none => false) = false := by
            revert hst
            cases (match d u with | some du => decide (du < c) | none => false) <;> simp
          have hdu : d u = some c := pop_nonstale_eq hinv.1 hpop hstf
          have hreach : Reach g s init u c := hinv.2.1 u c hdu
          have hri := Inv_after_pop hinv hpop hdu hut
          obtain ⟨hinv2, hphile⟩ := relax_fold hirr hreach (g.adjacency u) (rest, d)
            (fun x hx => hx) hri
          exact ih _ _ (Inv_restore hinv2) (Nat.lt_of_le_of_lt hphile hphi2)

lemma Inv_initial {g : MapGraph} {s t : Int} {sp : Province}
    (hsp : g.get_by_id s = some sp) (hts : t ≠ s) (init : Nat) :
    Inv g s init t [(init, s)] (fun v => if v = s then some init else none) := by
  refine ⟨?_, ?_, ?_, ?_, ?_, ?_, ?_⟩
  · intro cv hcv
    have hcveq : cv = (init, s) := List.mem_singleton.mp hcv
    rw [hcveq]
    exact ⟨init, by simp, le_refl _⟩
  · intro v cv hcv
    by_cases hv : v = s
    · rw [hv] at hcv ⊢
      simp only [if_pos rfl] at hcv
      have : init = cv := Option.some.inj hcv
      rw [← this]
      exact Reach.base
    · simp only [if_neg hv] at hcv
      cases hcv
  · exact ⟨init, by simp, le_refl _⟩
  · intro v cv hcv
    left
    by_cases hv : v = s
    · rw [hv] at hcv ⊢
      simp only [if_pos rfl] at hcv
      have : init = cv := Option.some.inj hcv
      rw [← this]
      exact List.mem_singleton.mpr rfl
    · simp only [if_neg hv] at hcv
      cases hcv
  · left
    simp only [if_neg hts]
  · intro v hv
    by_cases hvs : v = s
    · rw [hvs]
      exact get_by_id_mem_ids hsp
    · simp only [if_neg hvs, Option.isSome_none] at hv
      cases hv
  · intro v cv hcv
    by_cases hvs : v = s
    · rw [hvs] at hcv
      simp only [if_pos rfl] at hcv
      have : init = cv := Option.some.inj hcv
      omega
    · simp only [if_neg hvs] at hcv
      cases hcv

lemma Phi_initial_lt {g : MapGraph} {s : Int} (init : Nat) :
    Phi g (init + 3 * g.ids.length) [(init, s)]
      (fun v => if v = s then some init else none) < pathFuel g init := by
  unfold Phi pathFuel
  have hb : (g.ids.map (fun v =>
      phiOf (init + 3 * g.ids.length) (if v = s then some init else none))).sum ≤
      g.ids.length * ((init + 3 * g.ids.length) + 2) := by
    refine map_sum_le_bound ?_
    intro v _
    by_cases hv : v = s
    · simp only [if_pos hv, phiOf_some]
      omega
    · simp only [if_neg hv, phiOf_none]
      omega
  simp only [List.length_cons, List.length_nil]
  omega

lemma find_path_cost_run {g : MapGraph} {start target : Int} {sp : Province}
    (hne : start ≠ target) (hsp : g.get_by_id start = some sp) :
    find_path_cost g start target =
      (match dijkstraLoop g target
          (pathFuel g (if isRoughTerrain sp.terrain then 1 else 0))
          [((if isRoughTerrain sp.terrain then 1 else 0), start)]
          (fun v => if v = start then
             some (if isRoughTerrain sp.terrain then 1 else 0) else none) with
        | some r => (r : Int)
        | none => 9999) := by
  unfold find_path_cost
  rw [if_neg hne, hsp]

lemma optRes_nonneg :
    ∀ o : Option Nat, 0 ≤ (match o with | some r => (r : Int) | none => 9999)
  | none => by decide
  | some r => Int.natCast_nonneg r

lemma find_path_cost_nonneg (g : MapGraph) (start target : Int) :
    0 ≤ find_path_cost g start target := by
  by_cases h : start = target
  · unfold find_path_cost
    rw [if_pos h]
  · cases hv : g.get_by_id start with
    | none =>
      unfold find_path_cost
      rw [if_neg h, hv]
      dsimp only
      decide
    | some sp =>
      rw [find_path_cost_run h hv]
      exact optRes_nonneg _

/-- C3: `find_path_cost` returns 0 when start = target; otherwise, when
the start tile exists, the Dijkstra loop returns exactly the minimum over
all walks in the adjacency graph of (edges traversed) + (rough tiles
entered) + (start-rough penalty) + (river edges crossed) when the target
is reachable (the minimum is unique, so the result is independent of
priority-queue tie-breaking), and the sentinel 9999 ≥ 9000 when the
target is unreachable or the start tile is unknown; the result is never
negative.  Stated for adjacency graphs without self-loops, which is how
`_build_adjacency_graph` builds them (it only links distinct tiles). -/
theorem path_cost_matches_spec (g : MapGraph) (start target : Int)
    (hirr : ∀ v, v ∉ g.adjacency v) :
    (start = target → find_path_cost g start target = 0) ∧
    (start ≠ target → g.get_by_id start = none →
       find_path_cost g start target = 9999) ∧
    (∀ sp, start ≠ target → g.get_by_id start = some sp →
       ∀ init, init = (if isRoughTerrain sp.terrain then 1 else 0) →
         ((∃ n, Reach g start init target n) →
            ∃ r : Nat, find_path_cost g start target = (r : Int) ∧
              Reach g start init target r ∧
              ∀ m, Reach g start init target m → r ≤ m) ∧
         ((∀ n, ¬ Reach g start init target n) →
            find_path_cost g start target = 9999)) ∧
    0 ≤ find_path_cost g start target := by
  refine ⟨?_, ?_, ?_, find_path_cost_nonneg g start target⟩
  · intro h
    unfold find_path_cost
    rw [if_pos h]
  · intro hne hnone
    unfold find_path_cost
    rw [if_neg hne, hnone]
  · intro sp hne hsp init hinit
    have hts : target ≠ start := fun h => hne h.symm
    have hInv := Inv_initial hsp hts init
    have hPhi : Phi g (init + 3 * g.ids.length) [(init, start)]
        (fun v => if v = start then some init else none) < pathFuel g init :=
      Phi_initial_lt init
    obtain ⟨r, hr⟩ := dijkstraLoop_total hirr (pathFuel g init) [(init, start)]
      (fun v => if v = start then some init else none) hInv hPhi
    have hcase := dijkstraLoop_correct hirr (pathFuel g init) [(init, start)]
      (fun v => if v = start then some init else none) hInv r hr
    have hout : find_path_cost g start target = (r : Int) := by
      rw [find_path_cost_run hne hsp, ← hinit, hr]
    rcases hcase with ⟨hre, hmin⟩ | ⟨hr9, hunreach⟩
    · refine ⟨fun _ => ⟨r, hout, hre, hmin⟩, ?_⟩
      intro hnone
      exact absurd hre (hnone r)
    · constructor
      · rintro ⟨n, hn⟩
        exact absurd hn (hunreach n)
      · intro _
        rw [hout, hr9]
        rfl

def pathDemoProvince (pid : Int) (terr : String) : Province :=
  { province_id := pid, name := "", country := "", terrain := terr,
    defense := 0, victory_point := 0, x_factor := 0, y_factor := 0, units := [] }

/-- A three-tile chain 1 — 2 — 3 with a hill at tile 3 and no rivers. -/
def pathDemoGraph : MapGraph :=
  { provinces := [pathDemoProvince 1 "plain", pathDemoProvince 2 "plain",
      pathDemoProvince 3 "hill"],
    adjacency := (fun i =>
      if i = 1 then [2] else if i = 2 then [1, 3] else if i = 3 then [2] else []),
    riverEdge := (fun _ _ => false) }

lemma one_le_stepCost (g : MapGraph) (u next : Int) (p : Province) :
    1 ≤ stepCost g u next p := by
  unfold stepCost
  split_ifs <;> omega

lemma Reach_elim {g : MapGraph} {s v : Int} {init n : Nat}
    (h : Reach g s init v n) :
    (v = s ∧ n = init) ∨
    ∃ u m p, Reach g s init u m ∧ v ∈ g.adjacency u ∧
      g.get_by_id v = some p ∧ n = m + stepCost g u v p := by
  cases h with
  | base => exact Or.inl ⟨rfl, rfl⟩
  | step h hadj p hp => exact Or.inr ⟨_, _, p, h, hadj, hp, rfl⟩

lemma pathDemo_irr : ∀ v, v ∉ pathDemoGraph.adjacency v := by
  intro v
  show v ∉ (if v = 1 then [2] else if v = 2 then [1, 3] else
    if v = 3 then [2] else [])
  split_ifs with h1 h2 h3
  · rw [h1]; decide
  · rw [h2]; decide
  · rw [h3]; decide
  · exact List.not_mem_nil v

lemma pathDemo_to2 : ∀ n, Reach pathDemoGraph 1 0 2 n → 1 ≤ n := by
  intro n hn
  rcases Reach_elim hn with ⟨hv, _⟩ | ⟨u, m, p, _, _, _, hneq⟩
  · exact absurd hv (by decide)
  · have := one_le_stepCost pathDemoGraph u 2 p
    omega

lemma pathDemo_to3 : ∀ n, Reach pathDemoGraph 1 0 3 n → 3 ≤ n := by
  intro n hn
  rcases Reach_elim hn with ⟨hv, _⟩ | ⟨u, m, p, hu, hadj, hp, hneq⟩
  · exact absurd hv (by decide)
  · have hu2 : u = 2 := by
      have hform : pathDemoGraph.adjacency u = (if u = 1 then [2] else
          if u = 2 then [1, 3] else if u = 3 then [2] else []) := rfl
      rw [hform] at hadj
      by_cases hw1 : u = 1
      · rw [if_pos hw1] at hadj
        exact absurd hadj (by decide)
      · rw [if_neg hw1] at hadj
        by_cases hw2 : u = 2
        · exact hw2
        · rw [if_neg hw2] at hadj
          by_cases hw3 : u = 3
          · rw [if_pos hw3] at hadj
            exact absurd hadj (by decide)
          · rw [if_neg hw3] at hadj
            exact absurd hadj (List.not_mem_nil 3)
    have hpv : p = pathDemoProvince 3 "hill" := by
      have hform : pathDemoGraph.get_by_id 3 = some (pathDemoProvince 3 "hill") := rfl
      rw [hform] at hp
      exact (Option.some.inj hp).symm
    have hsc : stepCost pathDemoGraph 2 3 (pathDemoProvince 3 "hill") = 2 := rfl
    rw [hu2] at hu hneq
    rw [hpv, hsc] at hneq
    have hm1 := pathDemo_to2 m hu
    omega

theorem path_cost_matches_spec_witness :
    find_path_cost pathDemoGraph 1 1 = 0 ∧
    find_path_cost pathDemoGraph 99 1 = 9999 ∧
    find_path_cost pathDemoGraph 1 3 = 3 := by
  refine ⟨?_, ?_, ?_⟩
  · exact (path_cost_matches_spec pathDemoGraph 1 1 pathDemo_irr).1 rfl
  · exact (path_cost_matches_spec pathDemoGraph 99 1 pathDemo_irr).2.1
      (by decide) rfl
  · have hwalk1 : Reach pathDemoGraph 1 0 2 1 :=
      Reach.step Reach.base (by decide) (pathDemoProvince 2 "plain") rfl
    have hwalk2 : Reach pathDemoGraph 1 0 3 3 :=
      Reach.step hwalk1 (by decide) (pathDemoProvince 3 "hill") rfl
    obtain ⟨r, hout, hre, hmin⟩ :=
      ((path_cost_matches_spec pathDemoGraph 1 3 pathDemo_irr).2.2.1
        (pathDemoProvince 1 "plain") (by decide) rfl 0 (by decide)).1 ⟨3, hwalk2⟩
    have hub : r ≤ 3 := hmin 3 hwalk2
    have hlb : 3 ≤ r := pathDemo_to3 r hre
    have hr3 : r = 3 := le_antisymm hub hlb
    rw [hout, hr3]
    rfl

end ThreeKingdoms
